import Mathlib

/-!
Verification of the AgentForge workflow execution engine.

This file shallowly embeds the core of the backend (the topological
scheduler, the execution engine, the agent-node message builder and the
background task queue) as Lean definitions translated from the Python
source, and proves the spec's testable properties about them.

External capabilities (LLM chat, tool execution, knowledge retrieval) are
modelled as oracle functions collected in an `Env`; a Python exception is
modelled as `Except.error` carrying the exception text.
-/

namespace AgentForge

/-! ## Data model (`app/models/schema.py`) -/

inductive NodeType where
  | input | agent | tool | knowledge | output | shell_exec | file_system | powerbi
deriving DecidableEq, Repr, BEq

structure NodeData where
  nodeType : NodeType
  label : String
  model : String
  systemPrompt : String
  memory : Bool
  toolName : Option String
  params : Option (List (String × String))
deriving DecidableEq, Repr, BEq

/-- Field defaults as declared in `NodeData` in `schema.py`. -/
def defaultNodeData : NodeData :=
  { nodeType := .agent, label := "Node", model := "ollama:llama3:8b",
    systemPrompt := "", memory := true, toolName := none, params := none }

instance : Inhabited NodeData := ⟨defaultNodeData⟩

structure Node where
  id : String
  data : NodeData
deriving DecidableEq, Repr, BEq

instance : Inhabited Node := ⟨⟨"", defaultNodeData⟩⟩

structure Edge where
  source : String
  target : String
deriving DecidableEq, Repr, BEq

structure FlowGraph where
  nodes : List Node
  edges : List Edge
deriving DecidableEq, Repr, BEq

def nodeIds (g : FlowGraph) : List String := g.nodes.map (·.id)

/-- Python `a or b` on strings: `b` when `a` is empty. -/
def strOr (a b : String) : String := if a = "" then b else a

/-- Python `a or b` where `a` is an optional string (`None` and `""` are falsy). -/
def optOr (a : Option String) (b : String) : String :=
  match a with
  | none => b
  | some s => strOr s b

/-! ## Topological scheduler (`_topological_sort` in `executor.py`)

Python builds `in_degree = {n.id: 0 for n in graph.nodes}` (keys in first
occurrence order), then for each edge appends to `adj[edge.source]` and
increments `in_degree[edge.target]` — raising `KeyError` at the first edge
whose target is not a node id.  Kahn's loop then pops from the front of the
ready queue and appends newly-ready nodes at the back. -/

/-- Helper for `dedupFirst`: drop elements already seen. -/
def dedupFirstAux (seen : List String) : List String → List String
  | [] => []
  | x :: xs => if x ∈ seen then dedupFirstAux seen xs else x :: dedupFirstAux (x :: seen) xs

/-- Keys of a Python dict built by comprehension over possibly-repeating
keys: each key once, in first-occurrence order. -/
def dedupFirst (l : List String) : List String := dedupFirstAux [] l

inductive SortError where
  | keyError (k : String)
  | valueError (msg : String)
deriving DecidableEq, Repr

/-- First edge (in declaration order) whose target is not an existing node
id; incrementing its in-degree is where Python raises `KeyError`. -/
def findDanglingTarget (ids : List String) : List Edge → Option String
  | [] => none
  | e :: es => if e.target ∈ ids then findDanglingTarget ids es else some e.target

/-- In-degree of `v` once all edges are processed. -/
def initInDeg (g : FlowGraph) (v : String) : Int :=
  ((g.edges.filter (fun e => e.target == v)).length : Int)

/-- Adjacency list of `u`: targets of its out-edges, in edge order. -/
def adjOf (g : FlowGraph) (u : String) : List String :=
  (g.edges.filter (fun e => e.source == u)).map (·.target)

/-- The inner `for neighbor in adj[nid]` loop: decrement each neighbour's
in-degree and enqueue it (at the back) when it reaches zero. -/
def processNeighbors : List String → (String → Int) → List String → ((String → Int) × List String)
  | [], d, q => (d, q)
  | n :: ns, d, q =>
    let dn := d n - 1
    processNeighbors ns (fun w => if w = n then dn else d w) (if dn = 0 then q ++ [n] else q)

/-- Kahn's main loop, fuelled; with adequate fuel it runs until the ready
queue empties, exactly like the Python `while queue` loop. -/
def kahnLoop (adj : String → List String) :
    Nat → (String → Int) → List String → List String → List String
  | 0, _, _, order => order
  | _ + 1, _, [], order => order
  | fuel + 1, d, nid :: rest, order =>
    let p := processNeighbors (adj nid) d rest
    kahnLoop adj fuel p.1 p.2 (order ++ [nid])

def cycleMsg : String := "Flow graph contains a cycle — cannot execute."

/-- The dict key list of `in_degree`. -/
def gids (g : FlowGraph) : List String := dedupFirst (nodeIds g)

/-- The order produced by Kahn's loop, seeded with the zero-in-degree ids in
dict order; the fuel strictly dominates the possible number of iterations. -/
def kahnOrder (g : FlowGraph) : List String :=
  kahnLoop (adjOf g) (g.nodes.length + g.edges.length + 1) (initInDeg g)
    ((gids g).filter (fun v => initInDeg g v == 0)) []

def topologicalSort (g : FlowGraph) : Except SortError (List String) :=
  match findDanglingTarget (gids g) g.edges with
  | some t => .error (.keyError t)
  | none =>
    if (kahnOrder g).length = g.nodes.length then .ok (kahnOrder g)
    else .error (.valueError cycleMsg)

/-! ## Paths and cycles -/

def hasEdge (g : FlowGraph) (u v : String) : Prop :=
  ∃ e ∈ g.edges, e.source = u ∧ e.target = v

/-- `Reaches g u v`: there is a nonempty directed path from `u` to `v`. -/
inductive Reaches (g : FlowGraph) : String → String → Prop where
  | single {u v} : hasEdge g u v → Reaches g u v
  | tail {u v w} : Reaches g u v → hasEdge g v w → Reaches g u w

def hasCycle (g : FlowGraph) : Prop := ∃ v, Reaches g v v

/-! ## Memory service (`services/memory.py`, short-term store) -/

structure ChatMsg where
  role : String
  content : String
deriving DecidableEq, Repr, BEq

/-- The short-term store `_short_term`: session id → list of turns
(timestamps omitted; nothing reads them). -/
def MemShort : Type := String → List ChatMsg

/-- Python `l[-n:]`. -/
def lastN (n : Nat) (l : List ChatMsg) : List ChatMsg := l.drop (l.length - n)

/-- `store_short`: append a turn and keep the last 20. -/
def store_short (mem : MemShort) (session role content : String) : MemShort :=
  fun s => if s = session then lastN 20 (mem session ++ [⟨role, content⟩]) else mem s

/-- `inject_context`: prepend a recap of the last 6 turns right after an
existing leading system message. -/
def inject_context (mem : MemShort) (session : String) (messages : List ChatMsg) :
    List ChatMsg :=
  let history := mem session
  if history = [] then messages
  else
    let recap := "Previous conversation:\n" ++
      String.intercalate "\n"
        ((lastN 6 history).map (fun m => "  " ++ m.role ++ ": " ++ m.content.take 200))
    let systemRecap : ChatMsg := ⟨"system", recap⟩
    match messages with
    | [] => [systemRecap]
    | m0 :: restM =>
      if m0.role = "system" then m0 :: systemRecap :: restM
      else systemRecap :: m0 :: restM

/-! ## External capabilities

`get_llm` (registry.py) never raises, so an LLM call is one oracle keyed by
the resolved "provider:model" string.  `Except.error` models a raised
exception carrying its text. -/

structure Env where
  chat : String → List ChatMsg → Except String String
  runTool : String → List (String × String) → Except String String
  knowledge : String → Except String String
  mem0 : MemShort

/-! ## Agent service (`services/agent.py`) -/

/-- The system message content built by `run_agent`; each `+=` in the
source appends one formatted string. -/
def agentSystem (data : NodeData) (user_input context knowledge_ctx : String) : String :=
  let base := strOr data.systemPrompt
    ("You are a helpful " ++ data.label ++
     " assistant. Use the provided context to answer the user's question clearly and concisely.")
  let withKnow :=
    if knowledge_ctx ≠ "" then base ++ ("\n\nRelevant knowledge:\n" ++ knowledge_ctx) else base
  if context ≠ "" ∧ context ≠ user_input then
    withKnow ++ ("\n\nContext from previous steps:\n" ++ context)
  else withKnow

/-- The message list `run_agent` sends to the LLM. -/
def agentMessages (mem : MemShort) (data : NodeData) (session user_input context knowledge_ctx : String) :
    List ChatMsg :=
  let base : List ChatMsg := [⟨"system", agentSystem data user_input context knowledge_ctx⟩]
  let withHist := if data.memory then inject_context mem session base else base
  withHist ++ [⟨"user", strOr user_input context⟩]

/-- The model string `run_agent` resolves (`model_override or data.model or
"ollama:llama3:8b"`). -/
def agentModelStr (data : NodeData) (model_override : Option String) : String :=
  optOr model_override (strOr data.model "ollama:llama3:8b")

/-- `run_agent`: returns the LLM response (or the raised exception) and the
updated short-term memory store. -/
def run_agent (env : Env) (mem : MemShort) (node : Node) (user_input : String)
    (node_outputs : List (String × String)) (session : String)
    (model_override : Option String) (ctx : Option String) :
    Except String String × MemShort :=
  let data := node.data
  let model_str := agentModelStr data model_override
  let context :=
    match ctx with
    | some c => c
    | none => strOr (String.intercalate "\n\n" (node_outputs.map Prod.snd)) user_input
  match (if user_input ≠ "" then env.knowledge user_input else .ok "") with
  | .error e => (.error e, mem)
  | .ok knowledge_ctx =>
    let messages := agentMessages mem data session user_input context knowledge_ctx
    match env.chat model_str messages with
    | .error e => (.error e, mem)
    | .ok response =>
      (.ok response,
        if data.memory then
          store_short (store_short mem session "user" (strOr user_input context))
            session "assistant" response
        else mem)

/-! ## Execution engine (`services/executor.py`) -/

inductive LogType where
  | info | ok | warn | err | run | exec | chunk | done
deriving DecidableEq, Repr, BEq

inductive EventData where
  | output (s : String)
  | finalOutput (s : String)
deriving DecidableEq, Repr, BEq

structure LogEvent where
  type : LogType
  nodeId : Option String
  message : String
  data : Option EventData
deriving DecidableEq, Repr, BEq

def mkLog (t : LogType) (nodeId : Option String) (message : String)
    (data : Option EventData) : LogEvent :=
  ⟨t, nodeId, message, data⟩

/-- `_first_sentence`: one line, trimmed, truncated to 200 chars. -/
def firstSentence (text : String) : String :=
  let one_line := (text.replace "\n" " ").trim
  if 200 < one_line.length then one_line.take 200 ++ "…" else one_line

/-- Python `pat in s` (substring test) for nonempty `pat`. -/
def strContains (s pat : String) : Bool := (s.splitOn pat).length != 1

/-- `_guess_tool`: keyword heuristics on the lowercased label. -/
def guessTool (label : String) : String :=
  let l := label.toLower
  if strContains l "search" || strContains l "web" then "web_search"
  else if strContains l "code" || strContains l "run" || strContains l "exec" then "code_runner"
  else if strContains l "http" || strContains l "api" then "http_request"
  else if strContains l "file" || strContains l "read" then "file_reader"
  else "web_search"

/-- The messages `_synthesize_output` sends to the LLM. -/
def synthMessages (data : NodeData) (user_input gathered_context : String) : List ChatMsg :=
  let system := strOr data.systemPrompt
    ("You are a helpful assistant. " ++
     "Using the context below, write a clear, concise, and friendly answer " ++
     "to the user's question. Do NOT echo the context verbatim — summarize " ++
     "and synthesize it into a natural response.")
  [⟨"system", system⟩,
   ⟨"user", "User's question:\n" ++ user_input ++ "\n\nContext from previous steps:\n" ++
     gathered_context ++ "\n\nPlease provide a helpful, conversational answer."⟩]

/-- Direct feeders of a node: sources of edges targeting it, in edge order. -/
def feedsOf (g : FlowGraph) (nid : String) : List String :=
  (g.edges.filter (fun e => e.target == nid)).map (·.source)

/-- `node_map[nid]` for a dict comprehension: the last node with that id. -/
def nodeMapGet (g : FlowGraph) (nid : String) : Node :=
  (g.nodes.reverse.find? (fun n => n.id == nid)).getD default

/-- Context assembly: direct predecessors' recorded outputs joined by a
blank line, falling back to the run's user input when none are recorded. -/
def contextFor (g : FlowGraph) (outputs : List (String × String)) (user_input nid : String) :
    String :=
  let direct := (feedsOf g nid).filterMap (fun src => List.lookup src outputs)
  if direct = [] then user_input else String.intercalate "\n\n" direct

structure ExecState where
  events : List LogEvent
  outputs : List (String × String)
  mem : MemShort

/-- The body of the per-node `try` block: informational events emitted
before the capability call, the dispatch result, and the memory store
afterwards. -/
def dispatchNode (env : Env) (g : FlowGraph) (user_input model session : String)
    (outputs : List (String × String)) (mem : MemShort) (nid : String) :
    List LogEvent × Except String String × MemShort :=
  let node := nodeMapGet g nid
  let d := node.data
  let label := d.label
  let context := contextFor g outputs user_input nid
  match d.nodeType with
  | .input => ([], .ok (strOr user_input ("[Input: " ++ label ++ "]")), mem)
  | .agent =>
    let r := run_agent env mem node user_input outputs session
      (if d.model = "" then some model else none) (some context)
    ([mkLog .info (some nid) ("  Calling LLM (" ++ strOr d.model model ++ ")…") none],
     r.1, r.2)
  | .tool =>
    let tool_name := optOr d.toolName (guessTool label)
    let params0 := (d.params).getD []
    let params :=
      if params0 = [] then
        let search_query := strOr user_input.trim context
        if strContains tool_name "search" then [("query", search_query)]
        else [("code", context)]
      else params0
    ([mkLog .info (some nid) ("  Running tool: " ++ tool_name) none],
     env.runTool tool_name params, mem)
  | .knowledge =>
    ([mkLog .info (some nid) "  Retrieving knowledge context…" none],
     (match env.knowledge user_input with
      | .error e => .error e
      | .ok s => .ok (strOr s "No relevant knowledge found.")), mem)
  | .output =>
    ([mkLog .info (some nid) "  Synthesizing final answer…" none],
     env.chat (strOr d.model model) (synthMessages d user_input context), mem)
  | _ => ([], .ok context, mem)

/-- One iteration of the executor's node loop. -/
def execStep (env : Env) (g : FlowGraph) (user_input model session : String)
    (st : ExecState) (nid : String) : ExecState :=
  let node := nodeMapGet g nid
  let label := node.data.label
  let execEv := mkLog .exec (some nid) ("▶ " ++ label) none
  let r := dispatchNode env g user_input model session st.outputs st.mem nid
  match r.2.1 with
  | .ok result =>
    { events := st.events ++ execEv :: r.1 ++
        [mkLog .ok (some nid) ("  ✓ " ++ label ++ ": " ++ firstSentence result)
          (some (.output result))],
      outputs := st.outputs ++ [(nid, result)],
      mem := r.2.2 }
  | .error exc =>
    { events := st.events ++ execEv :: r.1 ++
        [mkLog .err (some nid) ("  ✗ " ++ label ++ " failed: " ++ exc) none],
      outputs := st.outputs ++ [(nid, "[error: " ++ exc ++ "]")],
      mem := r.2.2 }

def startEvent (g : FlowGraph) : LogEvent :=
  mkLog .run none ("Starting execution — " ++ toString g.nodes.length ++ " nodes") none

def isOutputNode (n : Node) : Bool := n.data.nodeType == NodeType.output

structure ExecOut where
  events : List LogEvent
  raised : Option String
  outputs : List (String × String)
  mem : MemShort

/-- The whole `execute` generator: the events it yields, the exception (if
any) that escapes it, and the final per-node outputs and memory store. -/
def execute (env : Env) (g : FlowGraph) (user_input model session : String) : ExecOut :=
  let ev0 := startEvent g
  match topologicalSort g with
  | .error (.keyError k) => ⟨[ev0], some ("KeyError: " ++ k), [], env.mem0⟩
  | .error (.valueError msg) => ⟨[ev0, mkLog .err none msg none], none, [], env.mem0⟩
  | .ok order =>
    let st := order.foldl (execStep env g user_input model session) ⟨[], [], env.mem0⟩
    let output_nodes := g.nodes.filter isOutputNode
    let final := String.intercalate "\n"
      (output_nodes.map (fun n => (List.lookup n.id st.outputs).getD ""))
    ⟨ev0 :: st.events ++ [mkLog .run none "Execution complete ✓" (some (.finalOutput final))],
     none, st.outputs, st.mem⟩

/-! ## Background task queue (`services/background_agent.py`)

The worker is a single coroutine; a task's processing is modelled as two
atomic phases (dequeue-and-mark-running, then finish), because the only
suspension between them is the `execute` drain itself.  `submitted` and
`started` are history variables recording submission order and dequeue
order. -/

inductive TaskStatus where
  | pending | running | done | error
deriving DecidableEq, Repr, BEq

structure BTask where
  status : TaskStatus
  result : Option String
  flow : FlowGraph
  user_input : String
deriving DecidableEq, Repr, BEq

inductive WorkerPhase where
  | idle
  | busy (task_id : String)
deriving DecidableEq, Repr, BEq

structure BgState where
  tasks : String → Option BTask
  queue : List String
  worker : WorkerPhase
  submitted : List String
  started : List String

def BgState.init : BgState :=
  ⟨fun _ => none, [], .idle, [], []⟩

def updateTask (tasks : String → Option BTask) (tid : String) (t : Option BTask) :
    String → Option BTask :=
  fun s => if s = tid then t else tasks s

/-- `submit_task`: create the record in `pending` state and enqueue its id. -/
def submitState (s : BgState) (tid : String) (flow : FlowGraph) (input : String) : BgState :=
  { s with
    tasks := updateTask s.tasks tid (some ⟨.pending, none, flow, input⟩),
    queue := s.queue ++ [tid],
    submitted := s.submitted ++ [tid] }

/-- `delete_task`: remove the record if present. -/
def deleteState (s : BgState) (tid : String) : BgState :=
  { s with tasks := updateTask s.tasks tid none }

/-- The worker's dequeue: pop the head, skip it if its record is gone,
otherwise mark it running and go busy. -/
def workerDequeue (s : BgState) : BgState :=
  match s.queue with
  | [] => s
  | tid :: rest =>
    match s.tasks tid with
    | none => { s with queue := rest, started := s.started ++ [tid] }
    | some t =>
      { s with
        queue := rest,
        started := s.started ++ [tid],
        tasks := updateTask s.tasks tid (some { t with status := .running }),
        worker := .busy tid }

/-- The worker's aggregation of a run: every nonempty event message,
newline-joined (`if msg: log_lines.append(msg)`). -/
def joinLogs (events : List LogEvent) : String :=
  String.intercalate "\n" ((events.map (·.message)).filter (fun m => m ≠ ""))

/-- The worker's completion of the in-flight task: drain `execute`, then
set `done` with the aggregated log, or `error` with the exception text. -/
def workerFinish (env : Env) (s : BgState) (tid : String) : BgState :=
  match s.tasks tid with
  | none => s
  | some t =>
    let r := execute env t.flow t.user_input "ollama:llama3:8b" ("bg-" ++ tid)
    match r.raised with
    | none =>
      { s with
        tasks := updateTask s.tasks tid
          (some { t with status := .done, result := some (joinLogs r.events) }),
        worker := .idle }
    | some exc =>
      { s with
        tasks := updateTask s.tasks tid
          (some { t with status := .error, result := some ("Error: " ++ exc) }),
        worker := .idle }

/-- Interleaving of submitters, deleters and the single worker.  A submit
needs a fresh uuid and a non-full queue (`maxsize=100`); the worker only
dequeues when idle, and only finishes a task whose record still exists (if
the record was deleted mid-run the coroutine dies without mutating state,
so no transition exists). -/
inductive BgStep (env : Env) : BgState → BgState → Prop where
  | submit (s : BgState) (tid : String) (flow : FlowGraph) (input : String) :
      s.tasks tid = none → tid ∉ s.submitted → s.queue.length < 100 →
      BgStep env s (submitState s tid flow input)
  | dequeue (s : BgState) :
      s.worker = .idle → s.queue ≠ [] → BgStep env s (workerDequeue s)
  | finish (s : BgState) (tid : String) (t : BTask) :
      s.worker = .busy tid → s.tasks tid = some t → BgStep env s (workerFinish env s tid)
  | delete (s : BgState) (tid : String) :
      BgStep env s (deleteState s tid)

/-- States reachable from the empty store with an idle worker. -/
inductive BgReachable (env : Env) : BgState → Prop where
  | init : BgReachable env BgState.init
  | step {s s'} : BgReachable env s → BgStep env s s' → BgReachable env s'

/-! ## Derived views of one executor iteration -/

/-- The output string recorded for a node by its iteration: the dispatch
result, or the error marker. -/
def stepValue (env : Env) (g : FlowGraph) (user_input model session : String)
    (outputs : List (String × String)) (mem : MemShort) (nid : String) : String :=
  match (dispatchNode env g user_input model session outputs mem nid).2.1 with
  | .ok result => result
  | .error exc => "[error: " ++ exc ++ "]"

/-- The events yielded during a node's iteration. -/
def stepEvents (env : Env) (g : FlowGraph) (user_input model session : String)
    (outputs : List (String × String)) (mem : MemShort) (nid : String) : List LogEvent :=
  let label := (nodeMapGet g nid).data.label
  let r := dispatchNode env g user_input model session outputs mem nid
  mkLog .exec (some nid) ("▶ " ++ label) none :: r.1 ++
    [match r.2.1 with
     | .ok result =>
       mkLog .ok (some nid) ("  ✓ " ++ label ++ ": " ++ firstSentence result)
         (some (.output result))
     | .error exc => mkLog .err (some nid) ("  ✗ " ++ label ++ " failed: " ++ exc) none]

/-- Classify an event for the per-node discipline: `some (true, n)` for a
`node-executing` event, `some (false, n)` for a terminal `ok`/`err` event,
`none` for anything else. -/
def nodeTag (e : LogEvent) : Option (Bool × Option String) :=
  if e.type = .exec then some (true, e.nodeId)
  else if e.type = .ok ∨ e.type = .err then some (false, e.nodeId)
  else none

/-- A trivial environment for concrete runs: every capability succeeds with
an empty result, and the memory store starts empty. -/
def envTrivial : Env := ⟨fun _ _ => .ok "", fun _ _ => .ok "", fun _ => .ok "", fun _ => []⟩

/-- A one-node graph used to exercise concrete background runs. -/
def gOneInput : FlowGraph := ⟨[⟨"a", { defaultNodeData with nodeType := .input }⟩], []⟩

/-- State after submitting one task `t1`. -/
def bgAfterSubmit : BgState := submitState BgState.init "t1" gOneInput "hi"

/-- State after the worker dequeues `t1` and marks it running. -/
def bgAfterDequeue : BgState := workerDequeue bgAfterSubmit

/-- The only permitted status movements: stay put, `pending → running`, or
`running → done|error`. -/
def statusForward (a b : TaskStatus) : Prop :=
  a = b ∨ (a = .pending ∧ b = .running) ∨ (a = .running ∧ (b = .done ∨ b = .error))

/-- No two distinct tasks are simultaneously `running`. -/
def atMostOneRunning (s : BgState) : Prop :=
  ∀ t1 t2 b1 b2, s.tasks t1 = some b1 → s.tasks t2 = some b2 →
    b1.status = .running → b2.status = .running → t1 = t2

/-- Inductive invariant of the background queue. -/
structure BgInv (s : BgState) : Prop where
  running_busy : ∀ tid t, s.tasks tid = some t → t.status = .running → s.worker = .busy tid
  busy_running : ∀ tid t, s.worker = .busy tid → s.tasks tid = some t → t.status = .running
  busy_started : ∀ tid, s.worker = .busy tid → tid ∈ s.started
  fifo : s.started ++ s.queue = s.submitted
  submitted_nodup : s.submitted.Nodup
  queue_pending : ∀ tid ∈ s.queue, ∀ t, s.tasks tid = some t → t.status = .pending

/-! ## General list lemmas -/

theorem countP_or_disjoint {α : Type} (l : List α) (a b : α → Bool)
    (h : ∀ x ∈ l, ¬(a x = true ∧ b x = true)) :
    l.countP (fun x => a x || b x) = l.countP a + l.countP b := by
  induction l with
  | nil => simp
  | cons y ys ih =>
    have hy := h y (by simp)
    have ht : ∀ x ∈ ys, ¬(a x = true ∧ b x = true) := fun x hx => h x (by simp [hx])
    have ihe := ih ht
    rcases ha : a y with _ | _ <;> rcases hb : b y with _ | _
    · simp [List.countP_cons, ha, hb, ihe]
    · simp [List.countP_cons, ha, hb, ihe]; omega
    · simp [List.countP_cons, ha, hb, ihe]; omega
    · exact absurd ⟨ha, hb⟩ hy

theorem countP_and_le {α : Type} (l : List α) (a b : α → Bool) :
    l.countP (fun x => a x && b x) ≤ l.countP a := by
  induction l with
  | nil => simp
  | cons y ys ih =>
    rcases ha : a y <;> rcases hb : b y <;> simp [List.countP_cons, ha, hb] <;> omega

theorem countP_and_eq_iff {α : Type} (l : List α) (a b : α → Bool) :
    l.countP (fun x => a x && b x) = l.countP a ↔ ∀ x ∈ l, a x = true → b x = true := by
  induction l with
  | nil => simp
  | cons y ys ih =>
    have hle := countP_and_le ys a b
    constructor
    · intro h x hx hax
      rcases List.mem_cons.mp hx with rfl | hx'
      · by_contra hbx
        have hbx' : b x = false := by
          rcases hb : b x with _ | _
          · rfl
          · exact absurd hb hbx
        rw [List.countP_cons, List.countP_cons, hax, hbx'] at h
        simp at h
        omega
      · have hys : ys.countP (fun x => a x && b x) = ys.countP a := by
          rw [List.countP_cons, List.countP_cons] at h
          rcases hay : a y with _ | _ <;> rcases hby : b y with _ | _ <;>
            rw [hay, hby] at h <;> simp at h <;> omega
        exact (ih.mp hys) x hx' hax
    · intro h
      have hys := ih.mpr (fun x hx => h x (List.mem_cons.mpr (Or.inr hx)))
      rw [List.countP_cons, List.countP_cons, hys]
      rcases hay : a y with _ | _
      · simp
      · rw [h y (List.mem_cons_self _ _) hay]
        simp

theorem countP_lt_exists {α : Type} (l : List α) (a b : α → Bool)
    (h : l.countP (fun x => a x && b x) ≠ l.countP a) :
    ∃ x ∈ l, a x = true ∧ b x = false := by
  by_contra hc
  push_neg at hc
  exact h ((countP_and_eq_iff l a b).mpr (fun x hx hax => by
    rcases hbx : b x with _ | _
    · exact absurd hbx (hc x hx hax)
    · rfl))

theorem sum_map_add {α : Type} (l : List α) (f h : α → Nat) :
    (l.map (fun x => f x + h x)).sum = (l.map f).sum + (l.map h).sum := by
  induction l with
  | nil => simp
  | cons y ys ih => simp [ih]; omega

theorem sum_indicator_nodup {t : String} (l : List String) (hl : l.Nodup) :
    (l.map (fun v => if t = v then 1 else 0)).sum ≤ 1 := by
  induction l with
  | nil => simp
  | cons y ys ih =>
    rcases List.nodup_cons.mp hl with ⟨hy, hys⟩
    by_cases hty : t = y
    · subst hty
      have : (ys.map (fun v => if t = v then 1 else 0)).sum = 0 := by
        apply List.sum_eq_zero
        intro x hx
        rcases List.mem_map.mp hx with ⟨v, hv, hveq⟩
        have : ¬ t = v := fun h => hy (h ▸ hv)
        simp [← hveq, this]
      simp [this]
    · simp [hty]
      exact ih hys

theorem indexOf_lt_of_mem_take {x : String} {l : List String} {n : Nat}
    (h : x ∈ l.take n) : l.indexOf x < n := by
  induction l generalizing n with
  | nil => simp at h
  | cons a as ih =>
    match n with
    | 0 => simp at h
    | m + 1 =>
      simp only [List.take_succ_cons, List.mem_cons] at h
      by_cases hxa : x = a
      · subst hxa; simp [List.indexOf_cons_self]
      · have hmem : x ∈ as.take m := by
          rcases h with h | h
          · exact absurd h hxa
          · exact h
        have := ih hmem
        rw [List.indexOf_cons_ne _ (fun h => hxa h.symm)]
        omega

theorem mem_take_indexOf_succ {x : String} {l : List String} (h : x ∈ l) :
    x ∈ l.take (l.indexOf x + 1) := by
  induction l with
  | nil => simp at h
  | cons a as ih =>
    by_cases hxa : x = a
    · subst hxa; simp [List.indexOf_cons_self]
    · rcases List.mem_cons.mp h with h' | h'
      · exact absurd h' hxa
      · rw [List.indexOf_cons_ne _ (fun h => hxa h.symm)]
        simp only [List.take_succ_cons, List.mem_cons]
        exact Or.inr (ih h')

/-! ## dedupFirst lemmas -/

theorem dedupFirstAux_sublist (seen : List String) (l : List String) :
    (dedupFirstAux seen l).Sublist l := by
  induction l generalizing seen with
  | nil => simp [dedupFirstAux]
  | cons x xs ih =>
    by_cases hx : x ∈ seen
    · simp only [dedupFirstAux, if_pos hx]
      exact (ih seen).trans (List.sublist_cons_self x xs)
    · simp only [dedupFirstAux, if_neg hx]
      exact (ih (x :: seen)).cons₂ x

theorem mem_dedupFirstAux {x : String} (seen : List String) (l : List String) :
    x ∈ dedupFirstAux seen l ↔ x ∈ l ∧ x ∉ seen := by
  induction l generalizing seen with
  | nil => simp [dedupFirstAux]
  | cons y ys ih =>
    by_cases hy : y ∈ seen
    · simp only [dedupFirstAux, if_pos hy, ih, List.mem_cons]
      constructor
      · rintro ⟨h1, h2⟩; exact ⟨Or.inr h1, h2⟩
      · rintro ⟨h1 | h1, h2⟩
        · exact absurd (h1 ▸ hy) h2
        · exact ⟨h1, h2⟩
    · simp only [dedupFirstAux, if_neg hy, List.mem_cons, ih]
      constructor
      · rintro (h | ⟨h1, h2⟩)
        · exact ⟨Or.inl h, h ▸ hy⟩
        · have h2' : x ∉ seen := fun hc => h2 (Or.inr hc)
          exact ⟨Or.inr h1, h2'⟩
      · rintro ⟨h1 | h1, h2⟩
        · exact Or.inl h1
        · by_cases hxy : x = y
          · exact Or.inl hxy
          · refine Or.inr ⟨h1, fun hc => ?_⟩
            rcases hc with h | h
            · exact hxy h
            · exact h2 h

theorem dedupFirstAux_nodup (seen : List String) (l : List String) :
    (dedupFirstAux seen l).Nodup := by
  induction l generalizing seen with
  | nil => simp [dedupFirstAux]
  | cons y ys ih =>
    by_cases hy : y ∈ seen
    · simp only [dedupFirstAux, if_pos hy]; exact ih seen
    · simp only [dedupFirstAux, if_neg hy]
      refine List.nodup_cons.mpr ⟨fun hc => ?_, ih (y :: seen)⟩
      exact ((mem_dedupFirstAux _ _).mp hc).2 (List.mem_cons_self _ _)

theorem mem_dedupFirst {x : String} (l : List String) : x ∈ dedupFirst l ↔ x ∈ l := by
  simp [dedupFirst, mem_dedupFirstAux]

theorem dedupFirst_nodup (l : List String) : (dedupFirst l).Nodup :=
  dedupFirstAux_nodup [] l

theorem dedupFirst_sublist (l : List String) : (dedupFirst l).Sublist l :=
  dedupFirstAux_sublist [] l

theorem dedupFirst_length_le (l : List String) : (dedupFirst l).length ≤ l.length :=
  (dedupFirst_sublist l).length_le

theorem dedupFirst_eq_self {l : List String} (h : l.Nodup) : dedupFirst l = l := by
  have hlen : l.length ≤ (dedupFirst l).length := by
    have hsub : l.Subset (dedupFirst l) := fun x hx => (mem_dedupFirst l).mpr hx
    calc l.length = l.toFinset.card := (List.toFinset_card_of_nodup h).symm
    _ ≤ (dedupFirst l).toFinset.card := Finset.card_le_card (fun x hx => by
        simp only [List.mem_toFinset] at hx ⊢; exact hsub hx)
    _ ≤ (dedupFirst l).length := (dedupFirst l).toFinset_card_le
  exact (dedupFirst_sublist l).eq_of_length (Nat.le_antisymm (dedupFirst_length_le l) hlen)

/-! ## processNeighbors lemmas -/

theorem pn_fst (L : List String) (d : String → Int) (q : List String) (w : String) :
    (processNeighbors L d q).1 w = d w - L.count w := by
  induction L generalizing d q with
  | nil => simp [processNeighbors]
  | cons n ns ih =>
    simp only [processNeighbors]
    rw [ih]
    by_cases hw : w = n
    · subst hw; simp [List.count_cons]; ring
    · have : (n == w) = false := by simp [Ne.symm hw]
      simp [List.count_cons, this, hw]

theorem pn_q_prefix (L : List String) (d : String → Int) (q : List String) :
    q.IsPrefix (processNeighbors L d q).2 := by
  induction L generalizing d q with
  | nil => simp [processNeighbors]
  | cons n ns ih =>
    simp only [processNeighbors]
    by_cases h : d n - 1 = 0
    · simp only [if_pos h]
      exact (List.prefix_append q [n]).trans (ih _ _)
    · simp only [if_neg h]
      exact ih _ _

theorem pn_q_mem (L : List String) (d : String → Int) (q : List String) (w : String) :
    w ∈ (processNeighbors L d q).2 ↔ w ∈ q ∨ (1 ≤ d w ∧ d w ≤ L.count w) := by
  induction L generalizing d q with
  | nil =>
    simp only [processNeighbors, List.count_nil]
    constructor
    · exact fun h => Or.inl h
    · rintro (h | ⟨h1, h2⟩)
      · exact h
      · omega
  | cons n ns ih =>
    simp only [processNeighbors]
    rw [ih]
    by_cases hw : w = n
    · subst hw
      rw [if_pos rfl, List.count_cons_self]
      by_cases h1 : d w - 1 = 0
      · rw [if_pos h1]
        simp only [List.mem_append, List.mem_singleton]
        have hc : (0 : Int) ≤ (ns.count w : Int) := Int.natCast_nonneg _
        constructor
        · intro _; right; constructor <;> omega
        · intro _; left; right; trivial
      · rw [if_neg h1]
        exact or_congr Iff.rfl (by omega)
    · rw [if_neg hw]
      have hbeq : (n == w) = false := beq_eq_false_iff_ne.mpr (Ne.symm hw)
      have hcnt : (n :: ns).count w = ns.count w := by
        rw [List.count_cons, hbeq]
        simp
      rw [hcnt]
      by_cases h1 : d n - 1 = 0
      · rw [if_pos h1]
        have : w ∈ q ++ [n] ↔ w ∈ q := by
          simp only [List.mem_append, List.mem_singleton]
          constructor
          · rintro (h | h)
            · exact h
            · exact absurd h hw
          · exact Or.inl
        exact or_congr this Iff.rfl
      · rw [if_neg h1]

theorem pn_q_nodup (L : List String) (d : String → Int) (q : List String)
    (hq : q.Nodup) (hd : ∀ w ∈ q, d w ≤ 0) :
    (processNeighbors L d q).2.Nodup := by
  induction L generalizing d q with
  | nil => simpa [processNeighbors]
  | cons n ns ih =>
    simp only [processNeighbors]
    by_cases h1 : d n - 1 = 0
    · simp only [if_pos h1]
      refine ih _ _ ?_ ?_
      · refine List.Nodup.append hq (List.nodup_singleton n) ?_
        intro x hx hn
        rcases List.mem_singleton.mp hn with rfl
        have := hd x hx
        omega
      · intro w hw
        rcases List.mem_append.mp hw with hw | hw
        · by_cases hwn : w = n
          · subst hwn
            simp only [if_true, eq_self_iff_true]
            omega
          · simp only [if_neg hwn]
            exact hd w hw
        · rcases List.mem_singleton.mp hw with rfl
          simp only [if_true, eq_self_iff_true]
          omega
    · simp only [if_neg h1]
      refine ih _ _ hq ?_
      intro w hw
      by_cases hwn : w = n
      · subst hwn
        have := hd w hw
        simp; omega
      · simpa [hwn] using hd w hw

theorem pn_q_subset (L : List String) (d : String → Int) (q : List String) (w : String)
    (h : w ∈ (processNeighbors L d q).2) : w ∈ q ∨ w ∈ L := by
  rcases (pn_q_mem L d q w).mp h with h | ⟨h1, h2⟩
  · exact Or.inl h
  · right
    have : 0 < L.count w := by omega
    exact List.count_pos_iff.mp this

/-! ## Edge counting -/

/-- Number of edges into `v` (the final `in_degree[v]`). -/
def Ecount (g : FlowGraph) (v : String) : Nat :=
  g.edges.countP (fun e => e.target == v)

/-- Number of edges into `v` whose source is already in `order`. -/
def Pcount (g : FlowGraph) (order : List String) (v : String) : Nat :=
  g.edges.countP (fun e => e.target == v && decide (e.source ∈ order))

/-- Number of edges `u → v`. -/
def Ncount (g : FlowGraph) (u v : String) : Nat :=
  g.edges.countP (fun e => e.target == v && e.source == u)

theorem initInDeg_eq_Ecount (g : FlowGraph) (v : String) :
    initInDeg g v = (Ecount g v : Int) := by
  simp [initInDeg, Ecount, List.countP_eq_length_filter]

theorem Pcount_nil (g : FlowGraph) (v : String) : Pcount g [] v = 0 := by
  simp [Pcount]

theorem Pcount_le_Ecount (g : FlowGraph) (order : List String) (v : String) :
    Pcount g order v ≤ Ecount g v :=
  countP_and_le _ _ _

theorem adjOf_count (g : FlowGraph) (u v : String) : (adjOf g u).count v = Ncount g u v := by
  simp only [adjOf, Ncount, List.count_eq_countP, List.countP_map, List.countP_filter]
  apply List.countP_congr
  intro e _
  simp [Function.comp, Bool.and_comm]

theorem Pcount_append_singleton (g : FlowGraph) (order : List String) (u v : String)
    (hu : u ∉ order) :
    Pcount g (order ++ [u]) v = Pcount g order v + Ncount g u v := by
  unfold Pcount Ncount
  have hcong : ∀ e ∈ g.edges,
      (e.target == v && decide (e.source ∈ order ++ [u])) = true ↔
      ((e.target == v && decide (e.source ∈ order)) || (e.target == v && (e.source == u))) = true := by
    intro e _
    by_cases ht : e.target = v
    · by_cases hs : e.source ∈ order
      · have hsu : e.source ≠ u := fun h => hu (h ▸ hs)
        simp [ht, hs, hsu]
      · by_cases hsu : e.source = u
        · simp [ht, hs, hsu]
        · simp [ht, hs, hsu]
    · have htf : (e.target == v) = false := by simp [ht]
      simp [htf]
  rw [List.countP_congr hcong]
  apply countP_or_disjoint
  intro e _
  rintro ⟨h1, h2⟩
  rcases (Bool.and_eq_true _ _).mp h1 with ⟨_, hs1⟩
  rcases (Bool.and_eq_true _ _).mp h2 with ⟨_, hs2⟩
  exact hu ((beq_iff_eq.mp hs2) ▸ of_decide_eq_true hs1)

theorem Ncount_le_of_not_mem (g : FlowGraph) (order : List String) (u v : String)
    (hu : u ∉ order) :
    Pcount g order v + Ncount g u v ≤ Ecount g v := by
  rw [← Pcount_append_singleton g order u v hu]
  exact Pcount_le_Ecount g _ v

/-- `in_degree[v] = 0` means every edge into `v` comes from `order`. -/
theorem Pcount_eq_Ecount_iff (g : FlowGraph) (order : List String) (v : String) :
    Pcount g order v = Ecount g v ↔
      ∀ e ∈ g.edges, e.target = v → e.source ∈ order := by
  unfold Pcount Ecount
  rw [countP_and_eq_iff]
  constructor
  · intro h e he ht
    exact of_decide_eq_true (h e he (beq_iff_eq.mpr ht))
  · intro h e he ht
    exact decide_eq_true (h e he (beq_iff_eq.mp ht))

theorem exists_edge_of_Pcount_ne (g : FlowGraph) (order : List String) (v : String)
    (h : Pcount g order v ≠ Ecount g v) :
    ∃ e ∈ g.edges, e.target = v ∧ e.source ∉ order := by
  rcases countP_lt_exists g.edges (fun e => e.target == v)
      (fun e => decide (e.source ∈ order)) h with ⟨e, he, h1, h2⟩
  exact ⟨e, he, beq_iff_eq.mp h1, of_decide_eq_false h2⟩

/-! ## The potential function bounding the number of loop iterations -/

def potSum (d : String → Int) (l : List String) : Nat :=
  (l.map (fun v => (d v).toNat)).sum

theorem potSum_update (n : String) (l : List String) (hl : l.Nodup) (hn : n ∈ l)
    (d : String → Int) (x : Int) :
    potSum (fun w => if w = n then x else d w) l + (d n).toNat = potSum d l + x.toNat := by
  induction l with
  | nil => simp at hn
  | cons a as ih =>
    rcases List.nodup_cons.mp hl with ⟨ha, has⟩
    rcases List.mem_cons.mp hn with rfl | hn'
    · have : as.map (fun w => (if w = n then x else d w).toNat) = as.map (fun w => (d w).toNat) := by
        apply List.map_congr_left
        intro w hw
        have : w ≠ n := fun h => ha (h ▸ hw)
        simp [this]
      simp only [potSum, List.map_cons, List.sum_cons, this, eq_self_iff_true, if_true]
      omega
    · have hne : a ≠ n := fun h => ha (h ▸ hn')
      have := ih has hn'
      simp only [potSum, List.map_cons, List.sum_cons, if_neg hne] at this ⊢
      omega

theorem pn_pot (ids : List String) (hids : ids.Nodup) :
    ∀ (L : List String) (d : String → Int) (q : List String), (∀ w ∈ L, w ∈ ids) →
    (processNeighbors L d q).2.length + potSum (processNeighbors L d q).1 ids ≤
      q.length + potSum d ids := by
  intro L
  induction L with
  | nil => intro d q _; simp [processNeighbors]
  | cons n ns ih =>
    intro d q hL
    have hn : n ∈ ids := hL n (List.mem_cons_self _ _)
    have hns : ∀ w ∈ ns, w ∈ ids := fun w hw => hL w (List.mem_cons.mpr (Or.inr hw))
    simp only [processNeighbors]
    have hupd := potSum_update n ids hids hn d (d n - 1)
    by_cases h1 : d n - 1 = 0
    · simp only [if_pos h1]
      have := ih (fun w => if w = n then d n - 1 else d w) (q ++ [n]) hns
      have hq : (q ++ [n]).length = q.length + 1 := by simp
      omega
    · simp only [if_neg h1]
      have := ih (fun w => if w = n then d n - 1 else d w) q hns
      have hmono : ((fun w => if w = n then d n - 1 else d w) n).toNat ≤ (d n).toNat := by
        simp only [if_pos rfl]
        omega
      omega

/-! ## The loop invariant of Kahn's algorithm -/

theorem gids_nodup (g : FlowGraph) : (gids g).Nodup := dedupFirst_nodup _

theorem mem_gids {g : FlowGraph} {v : String} : v ∈ gids g ↔ v ∈ nodeIds g :=
  mem_dedupFirst _

theorem mem_adjOf {g : FlowGraph} {u w : String} :
    w ∈ adjOf g u ↔ ∃ e ∈ g.edges, e.source = u ∧ e.target = w := by
  simp only [adjOf, List.mem_map, List.mem_filter]
  constructor
  · rintro ⟨e, ⟨he, hs⟩, ht⟩
    exact ⟨e, he, beq_iff_eq.mp hs, ht⟩
  · rintro ⟨e, he, hs, ht⟩
    exact ⟨e, ⟨he, beq_iff_eq.mpr hs⟩, ht⟩

theorem exists_edge_of_Ncount_pos {g : FlowGraph} {u v : String}
    (h : 0 < Ncount g u v) : ∃ e ∈ g.edges, e.source = u ∧ e.target = v := by
  rcases List.countP_pos_iff.mp h with ⟨e, he, hp⟩
  rcases (Bool.and_eq_true _ _).mp hp with ⟨h1, h2⟩
  exact ⟨e, he, beq_iff_eq.mp h2, beq_iff_eq.mp h1⟩

/-- Invariant between iterations of the `while queue` loop:
`order` is what has been popped so far, `queue` the current ready deque,
`d` the current `in_degree` table. -/
structure KahnInv (g : FlowGraph) (d : String → Int) (queue order : List String) : Prop where
  nodup : (order ++ queue).Nodup
  subset : ∀ v ∈ order ++ queue, v ∈ gids g
  deg : ∀ v ∈ gids g, d v = (Ecount g v : Int) - (Pcount g order v : Int)
  zero_iff : ∀ v ∈ gids g, (d v = 0 ↔ v ∈ order ++ queue)
  topo : ∀ e ∈ g.edges, ∀ n, e.target ∈ order.take (n + 1) → e.source ∈ order.take n

theorem KahnInv.sources_of_zero {g : FlowGraph} {d : String → Int} {queue order : List String}
    (inv : KahnInv g d queue order) {v : String} (hv : v ∈ gids g) (h0 : d v = 0) :
    ∀ e ∈ g.edges, e.target = v → e.source ∈ order := by
  have hdeg := inv.deg v hv
  have hle := Pcount_le_Ecount g order v
  have : Pcount g order v = Ecount g v := by omega
  exact (Pcount_eq_Ecount_iff g order v).mp this

theorem take_append_singleton_le {u : String} {l : List String} {m : Nat} (h : m ≤ l.length) :
    (l ++ [u]).take m = l.take m := by
  rw [List.take_append_eq_append_take]
  have : m - l.length = 0 := by omega
  simp [this]

theorem take_append_singleton_ge {u : String} {l : List String} {m : Nat} (h : l.length < m) :
    (l ++ [u]).take m = l ++ [u] := by
  apply List.take_of_length_le
  simp
  omega

theorem topo_mem_order {g : FlowGraph} {d : String → Int} {queue order : List String}
    (inv : KahnInv g d queue order) {e : Edge} (he : e ∈ g.edges)
    (ht : e.target ∈ order) : e.source ∈ order := by
  rcases Nat.eq_zero_or_pos order.length with h0 | hpos
  · rw [List.length_eq_zero.mp h0] at ht
    simp at ht
  · have h1 : order.take ((order.length - 1) + 1) = order := by
      have : order.length - 1 + 1 = order.length := by omega
      rw [this, List.take_length]
    have h2 := inv.topo e he (order.length - 1) (by rw [h1]; exact ht)
    exact List.take_subset _ _ h2

theorem kahnStep_inv {g : FlowGraph}
    (htgt : ∀ e ∈ g.edges, e.target ∈ gids g)
    {d : String → Int} {nid : String} {rest order : List String}
    (inv : KahnInv g d (nid :: rest) order) :
    KahnInv g (processNeighbors (adjOf g nid) d rest).1
      (processNeighbors (adjOf g nid) d rest).2 (order ++ [nid]) := by
  have hnodup := inv.nodup
  have hnodup' : ((order ++ [nid]) ++ rest).Nodup := by
    rwa [List.append_cons] at hnodup
  rcases List.nodup_append.mp hnodup' with ⟨hnd1, hndrest, hdisj⟩
  have hnid_not_order : nid ∉ order := by
    rcases List.nodup_append.mp hnd1 with ⟨_, _, hd⟩
    intro hc
    exact hd hc (List.mem_singleton_self _)
  have hnid_union : nid ∈ order ++ nid :: rest := by simp
  have hnid_ids : nid ∈ gids g := inv.subset nid hnid_union
  have hdnid : d nid = 0 := (inv.zero_iff nid hnid_ids).mpr hnid_union
  have hsrc_nid := inv.sources_of_zero hnid_ids hdnid
  have hrest_le : ∀ w ∈ rest, d w ≤ 0 := by
    intro w hw
    have hwu : w ∈ order ++ nid :: rest := by simp [hw]
    have := (inv.zero_iff w (inv.subset w hwu)).mpr hwu
    omega
  have hLids : ∀ w ∈ adjOf g nid, w ∈ gids g := by
    intro w hw
    rcases mem_adjOf.mp hw with ⟨e, he, _, ht⟩
    exact ht ▸ htgt e he
  have hN_le : ∀ v ∈ gids g, (Ncount g nid v : Int) ≤ d v := by
    intro v hv
    have h1 := Ncount_le_of_not_mem g order nid v hnid_not_order
    have h2 := inv.deg v hv
    omega
  have hp1 : ∀ v, (processNeighbors (adjOf g nid) d rest).1 v = d v - (adjOf g nid).count v :=
    pn_fst _ _ _
  have hcnt : ∀ v, ((adjOf g nid).count v : Int) = (Ncount g nid v : Int) := by
    intro v
    rw [adjOf_count]
  have hN0 : ∀ v ∈ gids g, d v = 0 → Ncount g nid v = 0 := by
    intro v hv h0
    by_contra hc
    rcases exists_edge_of_Ncount_pos (Nat.pos_of_ne_zero hc) with ⟨e, he, hs, ht⟩
    exact hnid_not_order (hs ▸ inv.sources_of_zero hv h0 e he ht)
  have hmem2 : ∀ v, v ∈ (processNeighbors (adjOf g nid) d rest).2 ↔
      v ∈ rest ∨ (1 ≤ d v ∧ d v ≤ (adjOf g nid).count v) := pn_q_mem _ _ _
  refine ⟨?_, ?_, ?_, ?_, ?_⟩
  · -- nodup
    refine List.nodup_append.mpr ⟨hnd1, ?_, ?_⟩
    · exact pn_q_nodup _ _ _ hndrest hrest_le
    · intro x hx hx2
      have hxu : x ∈ order ++ nid :: rest := by
        rcases List.mem_append.mp hx with h | h
        · simp [h]
        · simp [List.mem_singleton.mp h]
      have hx0 : d x = 0 := (inv.zero_iff x (inv.subset x hxu)).mpr hxu
      rcases (hmem2 x).mp hx2 with h | ⟨h1, _⟩
      · exact hdisj hx h
      · omega
  · -- subset
    intro v hv
    rcases List.mem_append.mp hv with h | h
    · rcases List.mem_append.mp h with h' | h'
      · exact inv.subset v (by simp [h'])
      · rcases List.mem_singleton.mp h'
        exact hnid_ids
    · rcases pn_q_subset _ _ _ _ h with h' | h'
      · exact inv.subset v (by simp [h'])
      · exact hLids v h'
  · -- deg
    intro v hv
    rw [hp1 v]
    have h1 := inv.deg v hv
    have h2 := Pcount_append_singleton g order nid v hnid_not_order
    have h3 := hcnt v
    omega
  · -- zero_iff
    intro v hv
    rw [hp1 v]
    have hc := hcnt v
    have hle := hN_le v hv
    constructor
    · intro h0
      by_cases hN : Ncount g nid v = 0
      · have hv0 : d v = 0 := by omega
        have := (inv.zero_iff v hv).mp hv0
        rcases List.mem_append.mp this with h | h
        · exact List.mem_append.mpr (Or.inl (List.mem_append.mpr (Or.inl h)))
        · rcases List.mem_cons.mp h with rfl | h'
          · exact List.mem_append.mpr (Or.inl (by simp))
          · exact List.mem_append.mpr (Or.inr ((hmem2 v).mpr (Or.inl h')))
      · have h1 : 1 ≤ d v ∧ d v ≤ (adjOf g nid).count v := by
          constructor <;> omega
        exact List.mem_append.mpr (Or.inr ((hmem2 v).mpr (Or.inr h1)))
    · intro hmem
      rcases List.mem_append.mp hmem with h | h
      · have hvu : v ∈ order ++ nid :: rest := by
          rcases List.mem_append.mp h with h' | h'
          · simp [h']
          · simp [List.mem_singleton.mp h']
        have hv0 : d v = 0 := (inv.zero_iff v hv).mpr hvu
        have hN := hN0 v hv hv0
        omega
      · rcases (hmem2 v).mp h with h' | ⟨h1, h2⟩
        · have hvu : v ∈ order ++ nid :: rest := by simp [h']
          have hv0 : d v = 0 := (inv.zero_iff v hv).mpr hvu
          have hN := hN0 v hv hv0
          omega
        · omega
  · -- topo
    intro e he n htn
    by_cases hn : n + 1 ≤ order.length
    · rw [take_append_singleton_le hn] at htn
      rw [take_append_singleton_le (by omega)]
      exact inv.topo e he n htn
    · have hsrc : e.source ∈ order := by
        have htm : e.target ∈ order ++ [nid] := by
          have := @take_append_singleton_ge nid order (n + 1) (by omega)
          rwa [this] at htn
        rcases List.mem_append.mp htm with h | h
        · exact topo_mem_order inv he h
        · exact hsrc_nid e he (List.mem_singleton.mp h)
      by_cases hn2 : n ≤ order.length
      · have hne : n = order.length := by omega
        rw [take_append_singleton_le (by omega), hne, List.take_length]
        exact hsrc
      · rw [take_append_singleton_ge (by omega)]
        exact List.mem_append.mpr (Or.inl hsrc)

theorem kahnStep_pot {g : FlowGraph}
    (htgt : ∀ e ∈ g.edges, e.target ∈ gids g)
    {d : String → Int} {nid : String} {rest : List String} :
    (processNeighbors (adjOf g nid) d rest).2.length +
      potSum (processNeighbors (adjOf g nid) d rest).1 (gids g) <
    (nid :: rest).length + potSum d (gids g) := by
  have hLids : ∀ w ∈ adjOf g nid, w ∈ gids g := by
    intro w hw
    rcases mem_adjOf.mp hw with ⟨e, he, _, ht⟩
    exact ht ▸ htgt e he
  have := pn_pot (gids g) (dedupFirst_nodup _) (adjOf g nid) d rest hLids
  simp only [List.length_cons]
  omega

/-- Running the loop from any invariant-satisfying state with adequate fuel
drains the queue, preserving the invariant; the input `order` is a prefix of
the result. -/
theorem kahnLoop_spec {g : FlowGraph}
    (htgt : ∀ e ∈ g.edges, e.target ∈ gids g) :
    ∀ (fuel : Nat) (d : String → Int) (queue order : List String),
      KahnInv g d queue order →
      queue.length + potSum d (gids g) < fuel →
      (∃ d', KahnInv g d' [] (kahnLoop (adjOf g) fuel d queue order)) ∧
      order.IsPrefix (kahnLoop (adjOf g) fuel d queue order) := by
  intro fuel
  induction fuel with
  | zero => intro d queue order _ hpot; omega
  | succ f ih =>
    intro d queue order inv hpot
    match queue with
    | [] => exact ⟨⟨d, inv⟩, List.prefix_rfl⟩
    | nid :: rest =>
      have hstep := kahnStep_inv htgt inv
      have hpot' := @kahnStep_pot g htgt d nid rest
      have hrec := ih (processNeighbors (adjOf g nid) d rest).1
        (processNeighbors (adjOf g nid) d rest).2 (order ++ [nid]) hstep (by omega)
      refine ⟨hrec.1, ?_⟩
      exact (List.prefix_append order [nid]).trans hrec.2

theorem kahnInit_inv (g : FlowGraph) :
    KahnInv g (initInDeg g) ((gids g).filter (fun v => initInDeg g v == 0)) [] := by
  refine ⟨?_, ?_, ?_, ?_, ?_⟩
  · simp only [List.nil_append]
    exact (dedupFirst_nodup _).filter _
  · intro v hv
    simp only [List.nil_append] at hv
    exact (List.mem_filter.mp hv).1
  · intro v _
    rw [initInDeg_eq_Ecount, Pcount_nil]
    simp
  · intro v hv
    simp only [List.nil_append]
    constructor
    · intro h0
      exact List.mem_filter.mpr ⟨hv, by simp [h0]⟩
    · intro hm
      have := (List.mem_filter.mp hm).2
      simpa using this
  · intro e _ n ht
    simp at ht

theorem sum_countP_target (l : List String) (hl : l.Nodup) (es : List Edge) :
    (l.map (fun v => es.countP (fun e => e.target == v))).sum ≤ es.length := by
  induction es with
  | nil => simp
  | cons e es ih =>
    have hmap : l.map (fun v => (e :: es).countP (fun e2 => e2.target == v)) =
        l.map (fun v => es.countP (fun e2 => e2.target == v) +
          (if e.target = v then 1 else 0)) := by
      apply List.map_congr_left
      intro v _
      rw [List.countP_cons]
      by_cases h : e.target = v
      · simp [h]
      · have : (e.target == v) = false := by simp [h]
        simp [this, h]
    rw [hmap, sum_map_add]
    have hind := @sum_indicator_nodup e.target l hl
    simp only [List.length_cons]
    omega

theorem kahnInit_pot (g : FlowGraph) :
    ((gids g).filter (fun v => initInDeg g v == 0)).length + potSum (initInDeg g) (gids g) <
      g.nodes.length + g.edges.length + 1 := by
  have h1 : ((gids g).filter (fun v => initInDeg g v == 0)).length ≤ (gids g).length :=
    List.length_filter_le _ _
  have h2 : (gids g).length ≤ g.nodes.length := by
    have := dedupFirst_length_le (nodeIds g)
    simpa [nodeIds] using this
  have h3 : potSum (initInDeg g) (gids g) ≤ g.edges.length := by
    have heq : potSum (initInDeg g) (gids g) =
        ((gids g).map (fun v => g.edges.countP (fun e => e.target == v))).sum := by
      unfold potSum
      congr 1
      apply List.map_congr_left
      intro v _
      rw [initInDeg_eq_Ecount]
      simp [Ecount]
    rw [heq]
    exact sum_countP_target _ (dedupFirst_nodup _) _
  omega

/-! ## Characterisation of `topologicalSort` -/

theorem findDanglingTarget_none_iff (ids : List String) (es : List Edge) :
    findDanglingTarget ids es = none ↔ ∀ e ∈ es, e.target ∈ ids := by
  induction es with
  | nil => simp [findDanglingTarget]
  | cons e es ih =>
    by_cases h : e.target ∈ ids
    · simp only [findDanglingTarget, if_pos h, ih]
      constructor
      · intro hall e2 he2
        rcases List.mem_cons.mp he2 with rfl | he2'
        · exact h
        · exact hall e2 he2'
      · intro hall e2 he2
        exact hall e2 (List.mem_cons.mpr (Or.inr he2))
    · simp only [findDanglingTarget, if_neg h]
      constructor
      · intro hc; exact absurd hc (by simp)
      · intro hall
        exact absurd (hall e (List.mem_cons_self _ _)) h

theorem findDanglingTarget_some {ids : List String} {es : List Edge} {k : String}
    (h : findDanglingTarget ids es = some k) : k ∉ ids ∧ ∃ e ∈ es, e.target = k := by
  induction es with
  | nil => simp [findDanglingTarget] at h
  | cons e es ih =>
    by_cases he : e.target ∈ ids
    · rw [findDanglingTarget, if_pos he] at h
      rcases ih h with ⟨h1, e2, he2, ht⟩
      exact ⟨h1, e2, List.mem_cons.mpr (Or.inr he2), ht⟩
    · rw [findDanglingTarget, if_neg he] at h
      rcases Option.some.inj h with rfl
      exact ⟨he, e, List.mem_cons_self _ _, rfl⟩

theorem nodup_subset_length {l1 l2 : List String} (h1 : l1.Nodup) (hs : l1 ⊆ l2) :
    l1.length ≤ l2.length := by
  calc l1.length = l1.toFinset.card := (List.toFinset_card_of_nodup h1).symm
  _ ≤ l2.toFinset.card := Finset.card_le_card (fun x hx => by
      simp only [List.mem_toFinset] at hx ⊢; exact hs hx)
  _ ≤ l2.length := l2.toFinset_card_le

theorem topologicalSort_ok_inv {g : FlowGraph} {order : List String}
    (h : topologicalSort g = .ok order) :
    (∀ e ∈ g.edges, e.target ∈ gids g) ∧ order.length = g.nodes.length ∧
      ∃ d', KahnInv g d' [] order := by
  unfold topologicalSort at h
  rcases hfind : findDanglingTarget (gids g) g.edges with _ | k
  · rw [hfind] at h
    have htgt : ∀ e ∈ g.edges, e.target ∈ gids g :=
      (findDanglingTarget_none_iff _ _).mp hfind
    rcases kahnLoop_spec htgt (g.nodes.length + g.edges.length + 1) (initInDeg g)
        ((gids g).filter (fun v => initInDeg g v == 0)) [] (kahnInit_inv g)
        (kahnInit_pot g) with ⟨⟨d', hinv⟩, _⟩
    by_cases hlen : (kahnOrder g).length = g.nodes.length
    · rw [if_pos hlen] at h
      rcases Except.ok.inj h with rfl
      exact ⟨htgt, hlen, d', hinv⟩
    · rw [if_neg hlen] at h
      exact absurd h (by simp)
  · rw [hfind] at h
    simp at h

theorem topologicalSort_ok_spec {g : FlowGraph} {order : List String}
    (h : topologicalSort g = .ok order) :
    order.Nodup ∧
    order.length = g.nodes.length ∧
    (∀ v, v ∈ order ↔ v ∈ nodeIds g) ∧
    (nodeIds g).Nodup ∧
    (∀ e ∈ g.edges, e.target ∈ nodeIds g) ∧
    (∀ e ∈ g.edges, ∀ n, e.target ∈ order.take (n + 1) → e.source ∈ order.take n) := by
  rcases topologicalSort_ok_inv h with ⟨htgt, hlen, d', hinv⟩
  have hnodup : order.Nodup := by
    have := hinv.nodup
    simpa using this
  have hsub : ∀ v ∈ order, v ∈ gids g := by
    intro v hv
    exact hinv.subset v (by simpa using hv)
  have hglen : (gids g).length ≤ g.nodes.length := by
    have := dedupFirst_length_le (nodeIds g)
    simpa [gids, nodeIds] using this
  have hlen2 : g.nodes.length ≤ (gids g).length := by
    rw [← hlen]
    exact nodup_subset_length hnodup hsub
  have hgeq : (gids g).length = g.nodes.length := by omega
  have hmemiff : ∀ v, v ∈ order ↔ v ∈ gids g := by
    intro v
    constructor
    · exact hsub v
    · intro hv
      have hfin : order.toFinset = (gids g).toFinset := by
        apply Finset.eq_of_subset_of_card_le
        · intro x hx
          simp only [List.mem_toFinset] at hx ⊢
          exact hsub x hx
        · rw [List.toFinset_card_of_nodup hnodup, List.toFinset_card_of_nodup (gids_nodup g)]
          omega
      have : v ∈ order.toFinset := by
        rw [hfin]
        simpa using hv
      simpa using this
  have hids_eq : nodeIds g = gids g := by
    have hsl : (gids g).Sublist (nodeIds g) := dedupFirst_sublist (nodeIds g)
    have hl : (gids g).length = (nodeIds g).length := by
      rw [hgeq]
      simp [nodeIds]
    exact (hsl.eq_of_length hl).symm
  refine ⟨hnodup, hlen, ?_, ?_, ?_, ?_⟩
  · intro v
    rw [hids_eq]
    exact hmemiff v
  · rw [hids_eq]
    exact gids_nodup g
  · intro e he
    rw [hids_eq]
    exact htgt e he
  · have := hinv.topo
    simpa using this

theorem topologicalSort_ok_edge_order {g : FlowGraph} {order : List String}
    (h : topologicalSort g = .ok order) :
    ∀ e ∈ g.edges, order.indexOf e.source < order.indexOf e.target := by
  rcases topologicalSort_ok_spec h with ⟨_, _, hmem, _, htgt, htopo⟩
  intro e he
  have ht : e.target ∈ order := (hmem e.target).mpr (htgt e he)
  have h1 : e.target ∈ order.take (order.indexOf e.target + 1) := mem_take_indexOf_succ ht
  have h2 := htopo e he (order.indexOf e.target) h1
  exact indexOf_lt_of_mem_take h2

theorem topologicalSort_ok_acyclic {g : FlowGraph} {order : List String}
    (h : topologicalSort g = .ok order) : ¬ hasCycle g := by
  have hord := topologicalSort_ok_edge_order h
  have hmono : ∀ u v, Reaches g u v → order.indexOf u < order.indexOf v := by
    intro u v hr
    induction hr with
    | single he =>
      rcases he with ⟨e, hee, hs, ht⟩
      have := hord e hee
      rw [hs, ht] at this
      exact this
    | tail _ he ih =>
      rcases he with ⟨e, hee, hs, ht⟩
      have := hord e hee
      rw [hs, ht] at this
      omega
  rintro ⟨v, hv⟩
  exact absurd (hmono v v hv) (by omega)

theorem topologicalSort_valueError_msg {g : FlowGraph} {msg : String}
    (h : topologicalSort g = .error (.valueError msg)) : msg = cycleMsg := by
  unfold topologicalSort at h
  rcases hfind : findDanglingTarget (gids g) g.edges with _ | k
  · rw [hfind] at h
    by_cases hlen : (kahnOrder g).length = g.nodes.length
    · rw [if_pos hlen] at h
      exact absurd h (by simp)
    · rw [if_neg hlen] at h
      simp only [Except.error.injEq, SortError.valueError.injEq] at h
      exact h.symm
  · rw [hfind] at h
    simp at h

theorem topologicalSort_keyError {g : FlowGraph} {k : String}
    (h : topologicalSort g = .error (.keyError k)) :
    k ∉ nodeIds g ∧ ∃ e ∈ g.edges, e.target = k := by
  unfold topologicalSort at h
  rcases hfind : findDanglingTarget (gids g) g.edges with _ | k2
  · rw [hfind] at h
    by_cases hlen : (kahnOrder g).length = g.nodes.length
    · rw [if_pos hlen] at h
      exact absurd h (by simp)
    · rw [if_neg hlen] at h
      simp at h
  · rw [hfind] at h
    simp only [Except.error.injEq, SortError.keyError.injEq] at h
    rcases findDanglingTarget_some hfind with ⟨hnot, e, he, ht⟩
    subst h
    refine ⟨fun hc => hnot ?_, e, he, ht⟩
    exact mem_gids.mpr hc

/-- A graph with a cycle (through resolving edge targets) makes the sort
raise the cycle `ValueError`. -/
theorem cycle_sort_error {g : FlowGraph} (hcyc : hasCycle g)
    (htgt : ∀ e ∈ g.edges, e.target ∈ nodeIds g) :
    topologicalSort g = .error (.valueError cycleMsg) := by
  rcases hres : topologicalSort g with err | order
  · rcases err with k | msg
    · rcases topologicalSort_keyError hres with ⟨hk, e, he, ht⟩
      exact absurd (ht ▸ htgt e he) hk
    · rw [topologicalSort_valueError_msg hres]
  · exact absurd hcyc (topologicalSort_ok_acyclic hres)

/-- A walk along chosen in-neighbours, repeated, yields a cycle. -/
theorem iterate_reaches {g : FlowGraph} {f : String → String}
    (k : Nat) (hk : 1 ≤ k) :
    ∀ x : String, (∀ n, hasEdge g (f (f^[n] x)) (f^[n] x)) →
      Reaches g (f^[k] x) x := by
  induction k with
  | zero => omega
  | succ m ih =>
    intro x hx
    rcases Nat.eq_zero_or_pos m with rfl | hm
    · have h0 := hx 0
      simp only [Function.iterate_zero, id] at h0
      simpa using Reaches.single h0
    · have hstep : Reaches g (f^[m] (f x)) (f x) := by
        apply ih hm (f x)
        intro n
        have := hx (n + 1)
        simpa [Function.iterate_succ_apply] using this
      have hlast : hasEdge g (f x) x := by
        have h0 := hx 0
        simpa using h0
      rw [Function.iterate_succ_apply]
      exact Reaches.tail hstep hlast

/-- On an acyclic graph whose edge endpoints all resolve, the loop drains
every node: the stuck-set pigeonhole argument. -/
theorem acyclic_sort_ok {g : FlowGraph}
    (hnodup : (nodeIds g).Nodup)
    (hsrc : ∀ e ∈ g.edges, e.source ∈ nodeIds g)
    (htgt : ∀ e ∈ g.edges, e.target ∈ nodeIds g)
    (hacyc : ¬ hasCycle g) :
    topologicalSort g = .ok (kahnOrder g) := by
  have htgt' : ∀ e ∈ g.edges, e.target ∈ gids g := fun e he => mem_gids.mpr (htgt e he)
  have hfind : findDanglingTarget (gids g) g.edges = none :=
    (findDanglingTarget_none_iff _ _).mpr htgt'
  rcases kahnLoop_spec htgt' (g.nodes.length + g.edges.length + 1) (initInDeg g)
      ((gids g).filter (fun v => initInDeg g v == 0)) [] (kahnInit_inv g)
      (kahnInit_pot g) with ⟨⟨d', hinv⟩, _⟩
  have hinv : KahnInv g d' [] (kahnOrder g) := hinv
  have hcomplete : ∀ v ∈ gids g, v ∈ kahnOrder g := by
    by_contra hc
    push_neg at hc
    set S : Finset String := (gids g).toFinset.filter (fun v => v ∉ kahnOrder g) with hS
    have hSmem : ∀ v, v ∈ S ↔ v ∈ gids g ∧ v ∉ kahnOrder g := by
      intro v
      simp [hS]
    have hSne : S.Nonempty := by
      rcases hc with ⟨v, hv1, hv2⟩
      exact ⟨v, (hSmem v).mpr ⟨hv1, hv2⟩⟩
    have hpred : ∀ v, ∃ u, v ∈ S → u ∈ S ∧ hasEdge g u v := by
      intro v
      by_cases hv : v ∈ S
      · rcases (hSmem v).mp hv with ⟨hvg, hvo⟩
        have hd : d' v ≠ 0 := by
          intro h0
          have := (hinv.zero_iff v hvg).mp h0
          simp at this
          exact hvo this
        have hP : Pcount g (kahnOrder g) v ≠ Ecount g v := by
          have := hinv.deg v hvg
          intro hPE
          omega
        rcases exists_edge_of_Pcount_ne g _ v hP with ⟨e, he, ht, hs⟩
        refine ⟨e.source, fun _ => ⟨?_, e, he, rfl, ht⟩⟩
        exact (hSmem e.source).mpr ⟨mem_gids.mpr (hsrc e he), hs⟩
      · exact ⟨v, fun hvc => absurd hvc hv⟩
    choose f hf using hpred
    rcases hSne with ⟨v0, hv0⟩
    have hiter : ∀ n, f^[n] v0 ∈ S := by
      intro n
      induction n with
      | zero => simpa using hv0
      | succ m ihm =>
        rw [Function.iterate_succ_apply']
        exact (hf _ ihm).1
    have hmap : ∀ i ∈ Finset.range (S.card + 1), f^[i] v0 ∈ S := fun i _ => hiter i
    have hcard : S.card < (Finset.range (S.card + 1)).card := by simp
    rcases Finset.exists_ne_map_eq_of_card_lt_of_maps_to hcard hmap with
      ⟨i, _, j, _, hij, heq⟩
    rcases Nat.lt_or_ge i j with hlt | hge
    · have hk : 1 ≤ j - i := by omega
      have hx : ∀ n, hasEdge g (f (f^[n] (f^[i] v0))) (f^[n] (f^[i] v0)) := by
        intro n
        have : f^[n] (f^[i] v0) = f^[n + i] v0 := by
          rw [← Function.iterate_add_apply]
        rw [this]
        exact (hf _ (hiter (n + i))).2
      have hr := iterate_reaches (j - i) hk (f^[i] v0) hx
      have hjj : f^[j - i] (f^[i] v0) = f^[j] v0 := by
        rw [← Function.iterate_add_apply]
        congr 1
        omega
      rw [hjj, heq] at hr
      exact hacyc ⟨f^[j] v0, hr⟩
    · have hlt2 : j < i := by omega
      have hk : 1 ≤ i - j := by omega
      have hx : ∀ n, hasEdge g (f (f^[n] (f^[j] v0))) (f^[n] (f^[j] v0)) := by
        intro n
        have : f^[n] (f^[j] v0) = f^[n + j] v0 := by
          rw [← Function.iterate_add_apply]
        rw [this]
        exact (hf _ (hiter (n + j))).2
      have hr := iterate_reaches (i - j) hk (f^[j] v0) hx
      have hjj : f^[i - j] (f^[j] v0) = f^[i] v0 := by
        rw [← Function.iterate_add_apply]
        congr 1
        omega
      rw [hjj, ← heq] at hr
      exact hacyc ⟨f^[i] v0, hr⟩
  have hord_nodup : (kahnOrder g).Nodup := by
    have := hinv.nodup
    simpa using this
  have hord_sub : ∀ v ∈ kahnOrder g, v ∈ gids g := by
    intro v hv
    exact hinv.subset v (by simpa using hv)
  have hgids_eq : gids g = nodeIds g := dedupFirst_eq_self hnodup
  have hlen1 : (kahnOrder g).length ≤ (gids g).length :=
    nodup_subset_length hord_nodup hord_sub
  have hlen2 : (gids g).length ≤ (kahnOrder g).length :=
    nodup_subset_length (gids_nodup g) hcomplete
  have hlen : (kahnOrder g).length = g.nodes.length := by
    have h3 : (gids g).length = g.nodes.length := by
      rw [hgids_eq]
      simp [nodeIds]
    omega
  unfold topologicalSort
  rw [hfind, if_pos hlen]

/-! ## Executor fold lemmas -/

theorem execStep_eq (env : Env) (g : FlowGraph) (user_input model session : String)
    (st : ExecState) (nid : String) :
    execStep env g user_input model session st nid =
      { events := st.events ++ stepEvents env g user_input model session st.outputs st.mem nid,
        outputs := st.outputs ++
          [(nid, stepValue env g user_input model session st.outputs st.mem nid)],
        mem := (dispatchNode env g user_input model session st.outputs st.mem nid).2.2 } := by
  unfold execStep stepEvents stepValue
  rcases hr : (dispatchNode env g user_input model session st.outputs st.mem nid).2.1 with e | v
  · simp [hr]
  · simp [hr]

theorem dispatch_infos_shape (env : Env) (g : FlowGraph) (user_input model session : String)
    (outputs : List (String × String)) (mem : MemShort) (nid : String) :
    ∀ ev ∈ (dispatchNode env g user_input model session outputs mem nid).1,
      ev.type = .info ∧ ev.nodeId = some nid := by
  intro ev hev
  unfold dispatchNode at hev
  rcases htype : (nodeMapGet g nid).data.nodeType <;> simp only [htype] at hev <;>
    first
      | exact absurd hev (List.not_mem_nil ev)
      | (rw [List.mem_singleton] at hev; subst hev; exact ⟨rfl, rfl⟩)

theorem foldl_exec_shift (env : Env) (g : FlowGraph) (user_input model session : String)
    (ns : List String) :
    ∀ (evs : List LogEvent) (outs : List (String × String)) (mem : MemShort),
    List.foldl (execStep env g user_input model session) ⟨evs, outs, mem⟩ ns =
      { events := evs ++
          (List.foldl (execStep env g user_input model session) ⟨[], outs, mem⟩ ns).events,
        outputs := (List.foldl (execStep env g user_input model session) ⟨[], outs, mem⟩ ns).outputs,
        mem := (List.foldl (execStep env g user_input model session) ⟨[], outs, mem⟩ ns).mem } := by
  induction ns with
  | nil => intro evs outs mem; simp
  | cons nid rest ih =>
    intro evs outs mem
    simp only [List.foldl_cons]
    rw [execStep_eq, execStep_eq]
    simp only [List.nil_append]
    rw [ih (evs ++ stepEvents env g user_input model session outs mem nid) _ _,
        ih (stepEvents env g user_input model session outs mem nid) _ _]
    simp

theorem foldl_outputs_keys (env : Env) (g : FlowGraph) (user_input model session : String)
    (ns : List String) :
    ∀ (st : ExecState),
    ((List.foldl (execStep env g user_input model session) st ns).outputs).map Prod.fst =
      (st.outputs.map Prod.fst) ++ ns := by
  induction ns with
  | nil => intro st; simp
  | cons nid rest ih =>
    intro st
    simp only [List.foldl_cons]
    rw [execStep_eq]
    rw [ih]
    simp

theorem lookup_isSome_of_mem_keys {k : String} {l : List (String × String)}
    (h : k ∈ l.map Prod.fst) : (List.lookup k l).isSome := by
  induction l with
  | nil => simp at h
  | cons p rest ih =>
    by_cases hk : k = p.1
    · have hb : (k == p.1) = true := beq_iff_eq.mpr hk
      simp [List.lookup, hb]
    · have hb : (k == p.1) = false := beq_eq_false_iff_ne.mpr hk
      simp only [List.lookup, hb]
      apply ih
      simp only [List.map_cons, List.mem_cons] at h
      rcases h with h | h
      · exact absurd h hk
      · exact h

theorem lookup_append_of_isSome {k : String} {l1 l2 : List (String × String)}
    (h : (List.lookup k l1).isSome) :
    List.lookup k (l1 ++ l2) = List.lookup k l1 := by
  induction l1 with
  | nil => simp [List.lookup] at h
  | cons p rest ih =>
    by_cases hk : k = p.1
    · have hb : (k == p.1) = true := beq_iff_eq.mpr hk
      simp [List.lookup, hb]
    · have hb : (k == p.1) = false := beq_eq_false_iff_ne.mpr hk
      simp only [List.cons_append, List.lookup, hb]
      apply ih
      simpa [List.lookup, hb] using h

theorem execute_ok_eq (env : Env) (g : FlowGraph) (user_input model session : String)
    {order : List String} (hsort : topologicalSort g = .ok order) :
    execute env g user_input model session =
      { events := startEvent g ::
          (order.foldl (execStep env g user_input model session) ⟨[], [], env.mem0⟩).events ++
          [mkLog .run none "Execution complete ✓" (some (.finalOutput (String.intercalate "\n"
            ((g.nodes.filter isOutputNode).map (fun n => (List.lookup n.id
              (order.foldl (execStep env g user_input model session)
                ⟨[], [], env.mem0⟩).outputs).getD "")))))],
        raised := none,
        outputs := (order.foldl (execStep env g user_input model session) ⟨[], [], env.mem0⟩).outputs,
        mem := (order.foldl (execStep env g user_input model session) ⟨[], [], env.mem0⟩).mem } := by
  unfold execute
  rw [hsort]

/-! ## Claim C1 -/

/-- C1: For every acyclic graph whose edges reference only existing node
ids (and whose node ids are unique, the Graph invariant of §3),
`_topological_sort` returns a permutation of all node ids in which every
edge's source appears strictly before its target. -/
theorem c1_topological_sort_correct {g : FlowGraph}
    (hnodup : (nodeIds g).Nodup)
    (hsrc : ∀ e ∈ g.edges, e.source ∈ nodeIds g)
    (htgt : ∀ e ∈ g.edges, e.target ∈ nodeIds g)
    (hacyc : ¬ hasCycle g) :
    ∃ order, topologicalSort g = .ok order ∧ order.Perm (nodeIds g) ∧
      ∀ e ∈ g.edges, order.indexOf e.source < order.indexOf e.target := by
  have hok := acyclic_sort_ok hnodup hsrc htgt hacyc
  rcases topologicalSort_ok_spec hok with ⟨hord_nodup, _, hmem, _, _, _⟩
  refine ⟨kahnOrder g, hok, ?_, topologicalSort_ok_edge_order hok⟩
  exact (List.perm_ext_iff_of_nodup hord_nodup hnodup).mpr hmem

/-- The witness graph for C1: two nodes `a → b`. -/
theorem reaches_witness_ab {u v : String}
    (h : Reaches ⟨[⟨"a", defaultNodeData⟩, ⟨"b", defaultNodeData⟩], [⟨"a", "b"⟩]⟩ u v) :
    u = "a" ∧ v = "b" := by
  induction h with
  | single he =>
    rcases he with ⟨e, hee, hs, ht⟩
    rcases List.mem_singleton.mp hee with rfl
    exact ⟨hs.symm, ht.symm⟩
  | tail hr he ih =>
    rcases he with ⟨e, hee, hs, ht⟩
    rcases List.mem_singleton.mp hee with rfl
    rcases ih with ⟨ih1, ih2⟩
    rw [← hs] at ih2
    exact absurd ih2 (by decide)

theorem c1_topological_sort_correct_witness :
    ∃ order, topologicalSort
        ⟨[⟨"a", defaultNodeData⟩, ⟨"b", defaultNodeData⟩], [⟨"a", "b"⟩]⟩ = .ok order ∧
      order.Perm (nodeIds ⟨[⟨"a", defaultNodeData⟩, ⟨"b", defaultNodeData⟩], [⟨"a", "b"⟩]⟩) ∧
      ∀ e ∈ ([⟨"a", "b"⟩] : List Edge),
        order.indexOf e.source < order.indexOf e.target :=
  c1_topological_sort_correct (by decide) (by intro e he; simp [nodeIds]; simp at he; simp [he])
    (by intro e he; simp [nodeIds]; simp at he; simp [he])
    (fun ⟨v, hv⟩ => by
      rcases reaches_witness_ab hv with ⟨h1, h2⟩
      rw [h1] at h2
      exact absurd h2 (by decide))

/-! ## Claim C2 -/

/-- C2: For every graph containing a directed cycle (with edge targets
resolving to nodes, the Graph invariant), ordering fails before any node
executes: the event sequence is exactly the start event followed by a
single error event, and no node output is recorded. -/
theorem c2_cycle_terminal (env : Env) {g : FlowGraph} (user_input model session : String)
    (hcyc : hasCycle g)
    (htgt : ∀ e ∈ g.edges, e.target ∈ nodeIds g) :
    execute env g user_input model session =
      ⟨[startEvent g, mkLog .err none cycleMsg none], none, [], env.mem0⟩ := by
  unfold execute
  rw [cycle_sort_error hcyc htgt]

theorem c2_cycle_terminal_witness :
    execute ⟨fun _ _ => .ok "", fun _ _ => .ok "", fun _ => .ok "", fun _ => []⟩
        ⟨[⟨"a", defaultNodeData⟩, ⟨"b", defaultNodeData⟩], [⟨"a", "b"⟩, ⟨"b", "a"⟩]⟩
        "hi" "m" "s" =
      ⟨[startEvent ⟨[⟨"a", defaultNodeData⟩, ⟨"b", defaultNodeData⟩],
          [⟨"a", "b"⟩, ⟨"b", "a"⟩]⟩,
        mkLog .err none cycleMsg none], none, [], fun _ => []⟩ :=
  c2_cycle_terminal _ "hi" "m" "s"
    ⟨"a", Reaches.tail
      (Reaches.single ⟨⟨"a", "b"⟩, by simp, rfl, rfl⟩)
      ⟨⟨"b", "a"⟩, by simp, rfl, rfl⟩⟩
    (by intro e he; simp [nodeIds]; simp at he; rcases he with h | h <;> simp [h])

/-! ## Claim C9 -/

theorem sort_ok_sources {g : FlowGraph} {order : List String}
    (h : topologicalSort g = .ok order) :
    ∀ e ∈ g.edges, e.source ∈ nodeIds g := by
  rcases topologicalSort_ok_spec h with ⟨_, _, hmem, _, htgt, htopo⟩
  intro e he
  have ht : e.target ∈ order := (hmem e.target).mpr (htgt e he)
  have h1 : e.target ∈ order.take (order.indexOf e.target + 1) := mem_take_indexOf_succ ht
  have h2 := htopo e he (order.indexOf e.target) h1
  exact (hmem e.source).mp (List.take_subset _ _ h2)

theorem sort_valueError_targets {g : FlowGraph} {msg : String}
    (h : topologicalSort g = .error (.valueError msg)) :
    ∀ e ∈ g.edges, e.target ∈ nodeIds g := by
  unfold topologicalSort at h
  rcases hfind : findDanglingTarget (gids g) g.edges with _ | k
  · intro e he
    exact mem_gids.mp ((findDanglingTarget_none_iff _ _).mp hfind e he)
  · rw [hfind] at h
    simp at h

/-- C9 counterexample: with one node `a` and the edge `a → z` whose target
does not exist, the run raises an uncaught `KeyError` after the start
event: no error event is surfaced to the caller at all, refuting the claim
that a dangling edge reference is reported as an error event. -/
theorem c9_counterexample :
    (execute ⟨fun _ _ => .ok "", fun _ _ => .ok "", fun _ => .ok "", fun _ => []⟩
        ⟨[⟨"a", defaultNodeData⟩], [⟨"a", "z"⟩]⟩ "hi" "m" "s").events.filter
      (fun e => e.type == LogType.err) = [] ∧
    (execute ⟨fun _ _ => .ok "", fun _ _ => .ok "", fun _ => .ok "", fun _ => []⟩
        ⟨[⟨"a", defaultNodeData⟩], [⟨"a", "z"⟩]⟩ "hi" "m" "s").raised =
      some "KeyError: z" := by
  exact ⟨rfl, rfl⟩

/-- C9 amended: a dangling edge reference always aborts the run before any
node executes (no node-executing or node-ok event, no recorded output), but
how it surfaces depends on the endpoint: if every target resolves (so a
source dangles), the sort raises the cycle `ValueError` and the run ends
with a single error event; if some target dangles, the `KeyError` escapes
the generator uncaught and the stream ends after the start event with no
error event. -/
theorem c9_dangling_edge_aborts (env : Env) (user_input model session : String)
    {g : FlowGraph}
    (hdangling : ∃ e ∈ g.edges, e.source ∉ nodeIds g ∨ e.target ∉ nodeIds g) :
    (execute env g user_input model session).outputs = [] ∧
    (∀ ev ∈ (execute env g user_input model session).events,
      ev.type ≠ .exec ∧ ev.type ≠ .ok) ∧
    ((∀ e ∈ g.edges, e.target ∈ nodeIds g) →
      execute env g user_input model session =
        ⟨[startEvent g, mkLog .err none cycleMsg none], none, [], env.mem0⟩) ∧
    ((∃ e ∈ g.edges, e.target ∉ nodeIds g) →
      (execute env g user_input model session).events = [startEvent g] ∧
      ∃ k, (execute env g user_input model session).raised = some ("KeyError: " ++ k) ∧
        k ∉ nodeIds g) := by
  rcases hres : topologicalSort g with err | order
  · rcases err with k | msg
    · rcases topologicalSort_keyError hres with ⟨hk, e, he, ht⟩
      have hexec : execute env g user_input model session =
          ⟨[startEvent g], some ("KeyError: " ++ k), [], env.mem0⟩ := by
        unfold execute
        rw [hres]
      rw [hexec]
      refine ⟨rfl, ?_, ?_, ?_⟩
      · intro ev hev
        rcases List.mem_singleton.mp hev with rfl
        exact ⟨by simp [startEvent, mkLog], by simp [startEvent, mkLog]⟩
      · intro hall
        exact absurd (ht ▸ hall e he) hk
      · intro _
        exact ⟨rfl, k, rfl, hk⟩
    · have hmsg := topologicalSort_valueError_msg hres
      subst hmsg
      have htgts := sort_valueError_targets hres
      have hexec : execute env g user_input model session =
          ⟨[startEvent g, mkLog .err none cycleMsg none], none, [], env.mem0⟩ := by
        unfold execute
        rw [hres]
      rw [hexec]
      refine ⟨rfl, ?_, fun _ => rfl, ?_⟩
      · intro ev hev
        rcases List.mem_cons.mp hev with rfl | hev'
        · exact ⟨by simp [startEvent, mkLog], by simp [startEvent, mkLog]⟩
        · rcases List.mem_singleton.mp hev' with rfl
          exact ⟨by simp [mkLog], by simp [mkLog]⟩
      · rintro ⟨e, he, ht⟩
        exact absurd (htgts e he) ht
  · exfalso
    rcases hdangling with ⟨e, he, hd | hd⟩
    · exact hd (sort_ok_sources hres e he)
    · rcases topologicalSort_ok_spec hres with ⟨_, _, _, _, htgt, _⟩
      exact hd (htgt e he)

theorem c9_dangling_edge_aborts_witness :
    (execute ⟨fun _ _ => .ok "", fun _ _ => .ok "", fun _ => .ok "", fun _ => []⟩
        ⟨[⟨"a", defaultNodeData⟩, ⟨"b", defaultNodeData⟩], [⟨"z", "b"⟩]⟩
        "hi" "m" "s").outputs = [] ∧
    (∀ ev ∈ (execute ⟨fun _ _ => .ok "", fun _ _ => .ok "", fun _ => .ok "", fun _ => []⟩
        ⟨[⟨"a", defaultNodeData⟩, ⟨"b", defaultNodeData⟩], [⟨"z", "b"⟩]⟩
        "hi" "m" "s").events, ev.type ≠ .exec ∧ ev.type ≠ .ok) ∧
    ((∀ e ∈ ([⟨"z", "b"⟩] : List Edge),
        e.target ∈ nodeIds ⟨[⟨"a", defaultNodeData⟩, ⟨"b", defaultNodeData⟩], [⟨"z", "b"⟩]⟩) →
      execute ⟨fun _ _ => .ok "", fun _ _ => .ok "", fun _ => .ok "", fun _ => []⟩
        ⟨[⟨"a", defaultNodeData⟩, ⟨"b", defaultNodeData⟩], [⟨"z", "b"⟩]⟩ "hi" "m" "s" =
        ⟨[startEvent ⟨[⟨"a", defaultNodeData⟩, ⟨"b", defaultNodeData⟩], [⟨"z", "b"⟩]⟩,
          mkLog .err none cycleMsg none], none, [], fun _ => []⟩) ∧
    ((∃ e ∈ ([⟨"z", "b"⟩] : List Edge),
        e.target ∉ nodeIds ⟨[⟨"a", defaultNodeData⟩, ⟨"b", defaultNodeData⟩], [⟨"z", "b"⟩]⟩) →
      (execute ⟨fun _ _ => .ok "", fun _ _ => .ok "", fun _ => .ok "", fun _ => []⟩
        ⟨[⟨"a", defaultNodeData⟩, ⟨"b", defaultNodeData⟩], [⟨"z", "b"⟩]⟩ "hi" "m" "s").events =
        [startEvent ⟨[⟨"a", defaultNodeData⟩, ⟨"b", defaultNodeData⟩], [⟨"z", "b"⟩]⟩] ∧
      ∃ k, (execute ⟨fun _ _ => .ok "", fun _ _ => .ok "", fun _ => .ok "", fun _ => []⟩
        ⟨[⟨"a", defaultNodeData⟩, ⟨"b", defaultNodeData⟩], [⟨"z", "b"⟩]⟩ "hi" "m" "s").raised =
          some ("KeyError: " ++ k) ∧
        k ∉ nodeIds ⟨[⟨"a", defaultNodeData⟩, ⟨"b", defaultNodeData⟩], [⟨"z", "b"⟩]⟩) :=
  c9_dangling_edge_aborts _ "hi" "m" "s"
    ⟨⟨"z", "b"⟩, by simp, Or.inl (by simp [nodeIds])⟩

/-! ## More executor fold lemmas -/

theorem lookup_append_of_not_mem_keys {k : String} {l1 l2 : List (String × String)}
    (h : k ∉ l1.map Prod.fst) :
    List.lookup k (l1 ++ l2) = List.lookup k l2 := by
  induction l1 with
  | nil => simp
  | cons p rest ih =>
    have hk : k ≠ p.1 := by
      intro hc
      exact h (by simp [hc])
    have hb : (k == p.1) = false := beq_eq_false_iff_ne.mpr hk
    simp only [List.cons_append, List.lookup, hb]
    exact ih (fun hc => h (by simp [hc]))

theorem foldl_outputs_ext (env : Env) (g : FlowGraph) (user_input model session : String)
    (ns : List String) :
    ∀ (st : ExecState), ∃ ext,
      (List.foldl (execStep env g user_input model session) st ns).outputs =
        st.outputs ++ ext := by
  induction ns with
  | nil => intro st; exact ⟨[], by simp⟩
  | cons nid rest ih =>
    intro st
    simp only [List.foldl_cons]
    rcases ih (execStep env g user_input model session st nid) with ⟨ext, hext⟩
    rw [hext, execStep_eq]
    exact ⟨[(nid, stepValue env g user_input model session st.outputs st.mem nid)] ++ ext,
      by simp⟩

theorem foldl_events_split (env : Env) (g : FlowGraph) (user_input model session : String)
    (l1 : List String) (m : String) (l2 : List String) :
    ∃ tail,
      (List.foldl (execStep env g user_input model session) ⟨[], [], env.mem0⟩
          (l1 ++ m :: l2)).events =
        (List.foldl (execStep env g user_input model session) ⟨[], [], env.mem0⟩ l1).events ++
        stepEvents env g user_input model session
          (List.foldl (execStep env g user_input model session) ⟨[], [], env.mem0⟩ l1).outputs
          (List.foldl (execStep env g user_input model session) ⟨[], [], env.mem0⟩ l1).mem m ++
        tail := by
  rw [List.foldl_append, List.foldl_cons, execStep_eq, foldl_exec_shift]
  exact ⟨_, rfl⟩

theorem foldl_outputs_split (env : Env) (g : FlowGraph) (user_input model session : String)
    (l1 : List String) (m : String) (l2 : List String) :
    ∃ ext,
      (List.foldl (execStep env g user_input model session) ⟨[], [], env.mem0⟩
          (l1 ++ m :: l2)).outputs =
        (List.foldl (execStep env g user_input model session) ⟨[], [], env.mem0⟩ l1).outputs ++
        [(m, stepValue env g user_input model session
          (List.foldl (execStep env g user_input model session) ⟨[], [], env.mem0⟩ l1).outputs
          (List.foldl (execStep env g user_input model session) ⟨[], [], env.mem0⟩ l1).mem m)] ++
        ext := by
  rw [List.foldl_append, List.foldl_cons]
  rcases foldl_outputs_ext env g user_input model session l2
    (execStep env g user_input model session
      (List.foldl (execStep env g user_input model session) ⟨[], [], env.mem0⟩ l1) m)
    with ⟨ext, hext⟩
  rw [hext, execStep_eq]
  exact ⟨ext, by simp⟩

/-- The output recorded for `m` survives all later writes (later keys are
distinct when the schedule has no duplicates). -/
theorem lookup_split_value (env : Env) (g : FlowGraph) (user_input model session : String)
    (l1 : List String) (m : String) (l2 : List String)
    (hm : m ∉ l1) :
    List.lookup m (List.foldl (execStep env g user_input model session) ⟨[], [], env.mem0⟩
        (l1 ++ m :: l2)).outputs =
      some (stepValue env g user_input model session
        (List.foldl (execStep env g user_input model session) ⟨[], [], env.mem0⟩ l1).outputs
        (List.foldl (execStep env g user_input model session) ⟨[], [], env.mem0⟩ l1).mem m) := by
  rcases foldl_outputs_split env g user_input model session l1 m l2 with ⟨ext, hext⟩
  rw [hext]
  have hkeys : (List.foldl (execStep env g user_input model session)
      ⟨[], [], env.mem0⟩ l1).outputs.map Prod.fst = l1 := by
    have := foldl_outputs_keys env g user_input model session l1 ⟨[], [], env.mem0⟩
    simpa using this
  have hnk : m ∉ (List.foldl (execStep env g user_input model session)
      ⟨[], [], env.mem0⟩ l1).outputs.map Prod.fst := by
    rw [hkeys]; exact hm
  rw [List.append_assoc, lookup_append_of_not_mem_keys hnk]
  simp [List.lookup]

/-! ## Claim C4 -/

/-- C4: in every run that executes, the final event is the `run-complete`
event and its payload is the newline-join of the recorded outputs of
exactly the output-type nodes, in graph declaration order; every output
node has a recorded output (so errored markers are included verbatim
rather than skipped). -/
theorem c4_run_complete_payload (env : Env) (user_input model session : String)
    {g : FlowGraph} {order : List String}
    (hsort : topologicalSort g = .ok order) :
    ∃ ev, (execute env g user_input model session).events.getLast? = some ev ∧
      ev.type = .run ∧ ev.nodeId = none ∧
      ev.data = some (.finalOutput (String.intercalate "\n"
        ((g.nodes.filter isOutputNode).map (fun n =>
          (List.lookup n.id (execute env g user_input model session).outputs).getD "")))) ∧
      ∀ n ∈ g.nodes.filter isOutputNode,
        (List.lookup n.id (execute env g user_input model session).outputs).isSome := by
  rcases topologicalSort_ok_spec hsort with ⟨_, _, hmem, _, _, _⟩
  rw [execute_ok_eq env g user_input model session hsort]
  refine ⟨mkLog .run none "Execution complete ✓" (some (.finalOutput (String.intercalate "\n"
      ((g.nodes.filter isOutputNode).map (fun n => (List.lookup n.id
        (List.foldl (execStep env g user_input model session)
          ⟨[], [], env.mem0⟩ order).outputs).getD ""))))),
    ?_, ?_, ?_, ?_, ?_⟩
  · simp only [← List.cons_append, List.getLast?_concat]
  · rfl
  · rfl
  · rfl
  · intro n hn
    apply lookup_isSome_of_mem_keys
    have hkeys := foldl_outputs_keys env g user_input model session order ⟨[], [], env.mem0⟩
    simp only [List.map_nil, List.nil_append] at hkeys
    simp only [hkeys]
    exact (hmem n.id).mpr (List.mem_map.mpr ⟨n, (List.mem_filter.mp hn).1, rfl⟩)

theorem c4_run_complete_payload_witness :
    ∃ ev, (execute ⟨fun _ _ => .ok "OUT", fun _ _ => .ok "", fun _ => .ok "", fun _ => []⟩
        ⟨[⟨"a", defaultNodeData⟩,
          ⟨"o", { defaultNodeData with nodeType := .output }⟩], [⟨"a", "o"⟩]⟩
        "hi" "m" "s").events.getLast? = some ev ∧
      ev.type = .run ∧ ev.nodeId = none ∧
      ev.data = some (.finalOutput (String.intercalate "\n"
        ((([⟨"a", defaultNodeData⟩,
            ⟨"o", { defaultNodeData with nodeType := .output }⟩] : List Node).filter
            isOutputNode).map (fun n =>
          (List.lookup n.id (execute ⟨fun _ _ => .ok "OUT", fun _ _ => .ok "", fun _ => .ok "",
              fun _ => []⟩
            ⟨[⟨"a", defaultNodeData⟩,
              ⟨"o", { defaultNodeData with nodeType := .output }⟩], [⟨"a", "o"⟩]⟩
            "hi" "m" "s").outputs).getD "")))) ∧
      ∀ n ∈ ([⟨"a", defaultNodeData⟩,
          ⟨"o", { defaultNodeData with nodeType := .output }⟩] : List Node).filter isOutputNode,
        (List.lookup n.id (execute ⟨fun _ _ => .ok "OUT", fun _ _ => .ok "", fun _ => .ok "",
            fun _ => []⟩
          ⟨[⟨"a", defaultNodeData⟩,
            ⟨"o", { defaultNodeData with nodeType := .output }⟩], [⟨"a", "o"⟩]⟩
          "hi" "m" "s").outputs).isSome :=
  c4_run_complete_payload _ "hi" "m" "s" (by rfl)

/-! ## Claim C5 -/

theorem mem_feedsOf {g : FlowGraph} {nid src : String} :
    src ∈ feedsOf g nid ↔ ∃ e ∈ g.edges, e.target = nid ∧ e.source = src := by
  simp only [feedsOf, List.mem_map, List.mem_filter]
  constructor
  · rintro ⟨e, ⟨he, ht⟩, hs⟩
    exact ⟨e, he, beq_iff_eq.mp ht, hs⟩
  · rintro ⟨e, he, ht, hs⟩
    exact ⟨e, ⟨he, beq_iff_eq.mpr ht⟩, hs⟩

theorem exists_map_some {α : Type} (l : List (Option α)) (h : ∀ x ∈ l, x.isSome) :
    ∃ vals : List α, l = vals.map some := by
  induction l with
  | nil => exact ⟨[], rfl⟩
  | cons x xs ih =>
    rcases ih (fun y hy => h y (List.mem_cons.mpr (Or.inr hy))) with ⟨vals, hvals⟩
    rcases Option.isSome_iff_exists.mp (h x (List.mem_cons_self _ _)) with ⟨v, hv⟩
    exact ⟨v :: vals, by rw [hvals, hv]; rfl⟩

theorem filterMap_of_map_some {α β : Type} (f : α → Option β) (l : List α) (vals : List β)
    (h : l.map f = vals.map some) : l.filterMap f = vals := by
  induction l generalizing vals with
  | nil =>
    rcases vals with _ | ⟨v, vs⟩
    · rfl
    · simp at h
  | cons x xs ih =>
    rcases vals with _ | ⟨v, vs⟩
    · simp at h
    · simp only [List.map_cons, List.cons.injEq] at h
      rw [List.filterMap_cons, h.1, ih vs h.2]

/-- C5: at the moment a node is dispatched, its context is assembled from
the already-recorded outputs of exactly its direct predecessors — all of
which are present (no predecessor is ever missing, no non-predecessor
contributes) — joined by a blank line; when the node has no direct
predecessors, the context is the run's top-level user input. -/
theorem c5_context_direct_predecessors (env : Env) (user_input model session : String)
    {g : FlowGraph} {order pre post : List String} {nid : String}
    (hsort : topologicalSort g = .ok order)
    (hsplit : order = pre ++ nid :: post) :
    ∃ vals : List String,
      ((feedsOf g nid).map (fun src => List.lookup src
        (List.foldl (execStep env g user_input model session) ⟨[], [], env.mem0⟩ pre).outputs)) =
        vals.map some ∧
      vals.length = (feedsOf g nid).length ∧
      contextFor g
        (List.foldl (execStep env g user_input model session) ⟨[], [], env.mem0⟩ pre).outputs
        user_input nid =
        (if vals = [] then user_input else String.intercalate "\n\n" vals) := by
  rcases topologicalSort_ok_spec hsort with ⟨hnodup, _, hmem, _, _, htopo⟩
  have hkeys : (List.foldl (execStep env g user_input model session)
      ⟨[], [], env.mem0⟩ pre).outputs.map Prod.fst = pre := by
    have := foldl_outputs_keys env g user_input model session pre ⟨[], [], env.mem0⟩
    simpa using this
  have hall : ∀ src ∈ feedsOf g nid,
      (List.lookup src (List.foldl (execStep env g user_input model session)
        ⟨[], [], env.mem0⟩ pre).outputs).isSome := by
    intro src hsrc
    rcases mem_feedsOf.mp hsrc with ⟨e, he, ht, hs⟩
    have htake : e.target ∈ order.take (pre.length + 1) := by
      rw [hsplit, List.take_append_eq_append_take]
      have h1 : pre.length + 1 - pre.length = 1 := by omega
      rw [List.take_of_length_le (by omega), h1]
      simp [ht]
    have hsrc_pre : e.source ∈ pre := by
      have := htopo e he pre.length htake
      rwa [hsplit, List.take_left] at this
    apply lookup_isSome_of_mem_keys
    rw [hkeys, ← hs]
    exact hsrc_pre
  rcases exists_map_some ((feedsOf g nid).map (fun src => List.lookup src
      (List.foldl (execStep env g user_input model session) ⟨[], [], env.mem0⟩ pre).outputs))
      (by
        intro x hx
        rcases List.mem_map.mp hx with ⟨src, hsrc, rfl⟩
        exact hall src hsrc) with ⟨vals, hvals⟩
  refine ⟨vals, hvals, ?_, ?_⟩
  · have := congrArg List.length hvals
    simpa using this.symm
  · unfold contextFor
    rw [filterMap_of_map_some _ _ _ hvals]

theorem c5_context_direct_predecessors_witness :
    ∃ vals : List String,
      ((feedsOf ⟨[⟨"a", { defaultNodeData with nodeType := .input }⟩,
          ⟨"o", { defaultNodeData with nodeType := .output }⟩], [⟨"a", "o"⟩]⟩ "o").map
        (fun src => List.lookup src
          (List.foldl (execStep ⟨fun _ _ => .ok "OUT", fun _ _ => .ok "", fun _ => .ok "",
              fun _ => []⟩
            ⟨[⟨"a", { defaultNodeData with nodeType := .input }⟩,
              ⟨"o", { defaultNodeData with nodeType := .output }⟩], [⟨"a", "o"⟩]⟩
            "hi" "m" "s") ⟨[], [], fun _ => []⟩ ["a"]).outputs)) = vals.map some ∧
      vals.length = (feedsOf ⟨[⟨"a", { defaultNodeData with nodeType := .input }⟩,
          ⟨"o", { defaultNodeData with nodeType := .output }⟩], [⟨"a", "o"⟩]⟩ "o").length ∧
      contextFor ⟨[⟨"a", { defaultNodeData with nodeType := .input }⟩,
          ⟨"o", { defaultNodeData with nodeType := .output }⟩], [⟨"a", "o"⟩]⟩
        (List.foldl (execStep ⟨fun _ _ => .ok "OUT", fun _ _ => .ok "", fun _ => .ok "",
            fun _ => []⟩
          ⟨[⟨"a", { defaultNodeData with nodeType := .input }⟩,
            ⟨"o", { defaultNodeData with nodeType := .output }⟩], [⟨"a", "o"⟩]⟩
          "hi" "m" "s") ⟨[], [], fun _ => []⟩ ["a"]).outputs
        "hi" "o" =
        (if vals = [] then "hi" else String.intercalate "\n\n" vals) :=
  c5_context_direct_predecessors _ "hi" "m" "s" (by rfl)
    (show ["a", "o"] = ["a"] ++ "o" :: [] from rfl)

/-! ## Claim C6 -/

theorem filterMap_all_none {α β : Type} {f : α → Option β} {l : List α}
    (h : ∀ x ∈ l, f x = none) : l.filterMap f = [] := by
  induction l with
  | nil => rfl
  | cons x xs ih =>
    rw [List.filterMap_cons, h x (List.mem_cons_self _ _)]
    exact ih (fun y hy => h y (List.mem_cons.mpr (Or.inr hy)))

theorem stepEvents_tags (env : Env) (g : FlowGraph) (user_input model session : String)
    (outs : List (String × String)) (mem : MemShort) (nid : String) :
    (stepEvents env g user_input model session outs mem nid).filterMap nodeTag =
      [(true, some nid), (false, some nid)] := by
  have hst : stepEvents env g user_input model session outs mem nid =
      (mkLog .exec (some nid) ("▶ " ++ (nodeMapGet g nid).data.label) none ::
        (dispatchNode env g user_input model session outs mem nid).1) ++
      [match (dispatchNode env g user_input model session outs mem nid).2.1 with
       | .ok result =>
         mkLog .ok (some nid) ("  ✓ " ++ (nodeMapGet g nid).data.label ++ ": " ++
           firstSentence result) (some (.output result))
       | .error exc =>
         mkLog .err (some nid) ("  ✗ " ++ (nodeMapGet g nid).data.label ++ " failed: " ++ exc)
           none] := rfl
  rw [hst, List.filterMap_append, List.filterMap_cons]
  have h1 : nodeTag (mkLog .exec (some nid) ("▶ " ++ (nodeMapGet g nid).data.label) none) =
      some (true, some nid) := by
    simp [nodeTag, mkLog]
  rw [h1]
  have h2 : ((dispatchNode env g user_input model session outs mem nid).1).filterMap nodeTag
      = [] := by
    apply filterMap_all_none
    intro ev hev
    rcases dispatch_infos_shape env g user_input model session outs mem nid ev hev with ⟨ht, _⟩
    simp [nodeTag, ht]
  rw [h2]
  rcases hres : (dispatchNode env g user_input model session outs mem nid).2.1 with e | v
  · simp [hres, nodeTag, mkLog]
  · simp [hres, nodeTag, mkLog]

theorem foldl_events_tags (env : Env) (g : FlowGraph) (user_input model session : String)
    (ns : List String) :
    ∀ (outs : List (String × String)) (mem : MemShort),
    ((List.foldl (execStep env g user_input model session) ⟨[], outs, mem⟩ ns).events).filterMap
        nodeTag =
      ns.bind (fun nid => [(true, some nid), (false, some nid)]) := by
  induction ns with
  | nil => intro outs mem; rfl
  | cons nid rest ih =>
    intro outs mem
    rw [List.foldl_cons, execStep_eq]
    simp only [List.nil_append]
    rw [foldl_exec_shift]
    simp only [List.cons_bind]
    rw [List.filterMap_append, stepEvents_tags, ih]

/-- C6: in every executed run, filtering the event sequence down to
node-executing and terminal (ok/err) events yields exactly one executing
event followed by exactly one terminal event per scheduled node, in
scheduler order; the schedule covers each node of the graph exactly once. -/
theorem c6_event_discipline (env : Env) (user_input model session : String)
    {g : FlowGraph} {order : List String}
    (hsort : topologicalSort g = .ok order) :
    ((execute env g user_input model session).events).filterMap nodeTag =
      order.bind (fun nid => [(true, some nid), (false, some nid)]) ∧
    order.Nodup ∧
    (∀ v, v ∈ order ↔ v ∈ nodeIds g) := by
  rcases topologicalSort_ok_spec hsort with ⟨hnodup, _, hmem, _, _, _⟩
  refine ⟨?_, hnodup, hmem⟩
  rw [execute_ok_eq env g user_input model session hsort]
  rw [List.filterMap_append, List.filterMap_cons]
  have h0 : nodeTag (startEvent g) = none := by simp [nodeTag, startEvent, mkLog]
  rw [h0]
  have hfin : (([mkLog .run none "Execution complete ✓" (some (.finalOutput
      (String.intercalate "\n" ((g.nodes.filter isOutputNode).map (fun n =>
        (List.lookup n.id (List.foldl (execStep env g user_input model session)
          ⟨[], [], env.mem0⟩ order).outputs).getD "")))))] : List LogEvent).filterMap nodeTag)
      = [] := by
    simp [nodeTag, mkLog]
  rw [hfin, foldl_events_tags]
  simp

theorem c6_event_discipline_witness :
    ((execute ⟨fun _ _ => .ok "OUT", fun _ _ => .ok "", fun _ => .ok "", fun _ => []⟩
        ⟨[⟨"a", { defaultNodeData with nodeType := .input }⟩,
          ⟨"o", { defaultNodeData with nodeType := .output }⟩], [⟨"a", "o"⟩]⟩
        "hi" "m" "s").events).filterMap nodeTag =
      (["a", "o"] : List String).bind (fun nid => [(true, some nid), (false, some nid)]) ∧
    (["a", "o"] : List String).Nodup ∧
    (∀ v, v ∈ (["a", "o"] : List String) ↔
      v ∈ nodeIds ⟨[⟨"a", { defaultNodeData with nodeType := .input }⟩,
        ⟨"o", { defaultNodeData with nodeType := .output }⟩], [⟨"a", "o"⟩]⟩) :=
  c6_event_discipline _ "hi" "m" "s" (by rfl)

/-! ## Claim C3 -/

/-- C3: if the dispatch of one scheduled node raises, the run is not
aborted: that node's slot is set to the error marker in the final outputs,
a node-error event for it is emitted, every node scheduled after it still
gets its node-executing event, and every later direct successor finds the
marker (not a missing key) among its direct-predecessor inputs when its own
context is assembled. -/
theorem c3_node_failure_contained (env : Env) (user_input model session : String)
    {g : FlowGraph} {order pre post : List String} {nid : String} {exc : String}
    (hsort : topologicalSort g = .ok order)
    (hsplit : order = pre ++ nid :: post)
    (hfail : (dispatchNode env g user_input model session
        (List.foldl (execStep env g user_input model session) ⟨[], [], env.mem0⟩ pre).outputs
        (List.foldl (execStep env g user_input model session) ⟨[], [], env.mem0⟩ pre).mem
        nid).2.1 = .error exc) :
    List.lookup nid (execute env g user_input model session).outputs =
      some ("[error: " ++ exc ++ "]") ∧
    (mkLog .err (some nid) ("  ✗ " ++ (nodeMapGet g nid).data.label ++ " failed: " ++ exc) none)
      ∈ (execute env g user_input model session).events ∧
    (∀ m ∈ post, (mkLog .exec (some m) ("▶ " ++ (nodeMapGet g m).data.label) none)
      ∈ (execute env g user_input model session).events) ∧
    (∀ (m : String) (post1 post2 : List String), post = post1 ++ m :: post2 →
      nid ∈ feedsOf g m →
      ("[error: " ++ exc ++ "]") ∈ (feedsOf g m).filterMap (fun src => List.lookup src
        (List.foldl (execStep env g user_input model session) ⟨[], [], env.mem0⟩
          (pre ++ nid :: post1)).outputs)) := by
  rcases topologicalSort_ok_spec hsort with ⟨hnodup, _, _, _, _, _⟩
  have hnid_pre : nid ∉ pre := by
    rw [hsplit] at hnodup
    rcases List.nodup_append.mp hnodup with ⟨_, _, hdisj⟩
    intro hc
    exact hdisj hc (List.mem_cons_self _ _)
  have hmarker : stepValue env g user_input model session
      (List.foldl (execStep env g user_input model session) ⟨[], [], env.mem0⟩ pre).outputs
      (List.foldl (execStep env g user_input model session) ⟨[], [], env.mem0⟩ pre).mem nid =
      "[error: " ++ exc ++ "]" := by
    unfold stepValue
    rw [hfail]
  have houts : ∀ suffix : List String,
      List.lookup nid (List.foldl (execStep env g user_input model session) ⟨[], [], env.mem0⟩
        (pre ++ nid :: suffix)).outputs = some ("[error: " ++ exc ++ "]") := by
    intro suffix
    rw [lookup_split_value env g user_input model session pre nid suffix hnid_pre, hmarker]
  rw [execute_ok_eq env g user_input model session hsort]
  refine ⟨?_, ?_, ?_, ?_⟩
  · show List.lookup nid (List.foldl (execStep env g user_input model session)
      ⟨[], [], env.mem0⟩ order).outputs = _
    rw [hsplit]
    exact houts post
  · show _ ∈ (startEvent g :: _) ++ [_]
    apply List.mem_append.mpr
    apply Or.inl
    apply List.mem_cons.mpr
    apply Or.inr
    rcases foldl_events_split env g user_input model session pre nid post with ⟨tail, htail⟩
    rw [hsplit, htail]
    apply List.mem_append.mpr
    apply Or.inl
    apply List.mem_append.mpr
    apply Or.inr
    have hstep : stepEvents env g user_input model session
        (List.foldl (execStep env g user_input model session) ⟨[], [], env.mem0⟩ pre).outputs
        (List.foldl (execStep env g user_input model session) ⟨[], [], env.mem0⟩ pre).mem nid =
        (mkLog .exec (some nid) ("▶ " ++ (nodeMapGet g nid).data.label) none ::
          (dispatchNode env g user_input model session
            (List.foldl (execStep env g user_input model session) ⟨[], [], env.mem0⟩ pre).outputs
            (List.foldl (execStep env g user_input model session) ⟨[], [], env.mem0⟩ pre).mem
            nid).1) ++
        [mkLog .err (some nid) ("  ✗ " ++ (nodeMapGet g nid).data.label ++ " failed: " ++ exc)
          none] := by
      have hstep0 : stepEvents env g user_input model session
          (List.foldl (execStep env g user_input model session) ⟨[], [], env.mem0⟩ pre).outputs
          (List.foldl (execStep env g user_input model session) ⟨[], [], env.mem0⟩ pre).mem nid =
          (mkLog .exec (some nid) ("▶ " ++ (nodeMapGet g nid).data.label) none ::
            (dispatchNode env g user_input model session
              (List.foldl (execStep env g user_input model session)
                ⟨[], [], env.mem0⟩ pre).outputs
              (List.foldl (execStep env g user_input model session)
                ⟨[], [], env.mem0⟩ pre).mem nid).1) ++
          [match (dispatchNode env g user_input model session
              (List.foldl (execStep env g user_input model session)
                ⟨[], [], env.mem0⟩ pre).outputs
              (List.foldl (execStep env g user_input model session)
                ⟨[], [], env.mem0⟩ pre).mem nid).2.1 with
           | .ok result =>
             mkLog .ok (some nid) ("  ✓ " ++ (nodeMapGet g nid).data.label ++ ": " ++
               firstSentence result) (some (.output result))
           | .error exc2 =>
             mkLog .err (some nid) ("  ✗ " ++ (nodeMapGet g nid).data.label ++ " failed: " ++
               exc2) none] := rfl
      rw [hstep0, hfail]
    rw [hstep]
    apply List.mem_append.mpr
    exact Or.inr (List.mem_singleton_self _)
  · intro m hm
    show _ ∈ (startEvent g :: _) ++ [_]
    apply List.mem_append.mpr
    apply Or.inl
    apply List.mem_cons.mpr
    apply Or.inr
    rcases List.append_of_mem hm with ⟨post1, post2, rfl⟩
    have hsplit2 : order = (pre ++ nid :: post1) ++ m :: post2 := by
      rw [hsplit]
      simp
    rcases foldl_events_split env g user_input model session (pre ++ nid :: post1) m post2
      with ⟨tail, htail⟩
    rw [hsplit2, htail]
    apply List.mem_append.mpr
    apply Or.inl
    apply List.mem_append.mpr
    apply Or.inr
    have hstep : stepEvents env g user_input model session
        (List.foldl (execStep env g user_input model session) ⟨[], [], env.mem0⟩
          (pre ++ nid :: post1)).outputs
        (List.foldl (execStep env g user_input model session) ⟨[], [], env.mem0⟩
          (pre ++ nid :: post1)).mem m =
        (mkLog .exec (some m) ("▶ " ++ (nodeMapGet g m).data.label) none ::
          (dispatchNode env g user_input model session _ _ m).1) ++ [_] := rfl
    rw [hstep]
    exact List.mem_append.mpr (Or.inl (List.mem_cons_self _ _))
  · intro m post1 post2 hpost hfeeds
    apply List.mem_filterMap.mpr
    refine ⟨nid, hfeeds, ?_⟩
    have : pre ++ nid :: (post1 : List String) = pre ++ nid :: post1 := rfl
    rw [houts post1]

theorem c3_node_failure_contained_witness :
    List.lookup "ag" (execute
        ⟨fun _ _ => .error "boom", fun _ _ => .ok "", fun _ => .ok "", fun _ => []⟩
        ⟨[⟨"in1", { defaultNodeData with nodeType := .input }⟩,
          ⟨"ag", { defaultNodeData with nodeType := .agent }⟩,
          ⟨"down", { defaultNodeData with nodeType := .powerbi }⟩],
         [⟨"in1", "ag"⟩, ⟨"ag", "down"⟩]⟩ "hi" "m" "s").outputs =
      some ("[error: " ++ "boom" ++ "]") ∧
    (mkLog .err (some "ag") ("  ✗ " ++ (nodeMapGet
        ⟨[⟨"in1", { defaultNodeData with nodeType := .input }⟩,
          ⟨"ag", { defaultNodeData with nodeType := .agent }⟩,
          ⟨"down", { defaultNodeData with nodeType := .powerbi }⟩],
         [⟨"in1", "ag"⟩, ⟨"ag", "down"⟩]⟩ "ag").data.label ++ " failed: " ++ "boom") none)
      ∈ (execute ⟨fun _ _ => .error "boom", fun _ _ => .ok "", fun _ => .ok "", fun _ => []⟩
        ⟨[⟨"in1", { defaultNodeData with nodeType := .input }⟩,
          ⟨"ag", { defaultNodeData with nodeType := .agent }⟩,
          ⟨"down", { defaultNodeData with nodeType := .powerbi }⟩],
         [⟨"in1", "ag"⟩, ⟨"ag", "down"⟩]⟩ "hi" "m" "s").events ∧
    (∀ m ∈ (["down"] : List String), (mkLog .exec (some m) ("▶ " ++ (nodeMapGet
        ⟨[⟨"in1", { defaultNodeData with nodeType := .input }⟩,
          ⟨"ag", { defaultNodeData with nodeType := .agent }⟩,
          ⟨"down", { defaultNodeData with nodeType := .powerbi }⟩],
         [⟨"in1", "ag"⟩, ⟨"ag", "down"⟩]⟩ m).data.label) none)
      ∈ (execute ⟨fun _ _ => .error "boom", fun _ _ => .ok "", fun _ => .ok "", fun _ => []⟩
        ⟨[⟨"in1", { defaultNodeData with nodeType := .input }⟩,
          ⟨"ag", { defaultNodeData with nodeType := .agent }⟩,
          ⟨"down", { defaultNodeData with nodeType := .powerbi }⟩],
         [⟨"in1", "ag"⟩, ⟨"ag", "down"⟩]⟩ "hi" "m" "s").events) ∧
    (∀ (m : String) (post1 post2 : List String),
      (["down"] : List String) = post1 ++ m :: post2 →
      "ag" ∈ feedsOf ⟨[⟨"in1", { defaultNodeData with nodeType := .input }⟩,
          ⟨"ag", { defaultNodeData with nodeType := .agent }⟩,
          ⟨"down", { defaultNodeData with nodeType := .powerbi }⟩],
         [⟨"in1", "ag"⟩, ⟨"ag", "down"⟩]⟩ m →
      ("[error: " ++ "boom" ++ "]") ∈ (feedsOf
        ⟨[⟨"in1", { defaultNodeData with nodeType := .input }⟩,
          ⟨"ag", { defaultNodeData with nodeType := .agent }⟩,
          ⟨"down", { defaultNodeData with nodeType := .powerbi }⟩],
         [⟨"in1", "ag"⟩, ⟨"ag", "down"⟩]⟩ m).filterMap (fun src => List.lookup src
        (List.foldl (execStep
          ⟨fun _ _ => .error "boom", fun _ _ => .ok "", fun _ => .ok "", fun _ => []⟩
          ⟨[⟨"in1", { defaultNodeData with nodeType := .input }⟩,
            ⟨"ag", { defaultNodeData with nodeType := .agent }⟩,
            ⟨"down", { defaultNodeData with nodeType := .powerbi }⟩],
           [⟨"in1", "ag"⟩, ⟨"ag", "down"⟩]⟩ "hi" "m" "s") ⟨[], [], fun _ => []⟩
          (["in1"] ++ "ag" :: post1)).outputs)) :=
  c3_node_failure_contained _ "hi" "m" "s" (by rfl)
    (show ["in1", "ag", "down"] = ["in1"] ++ "ag" :: ["down"] from rfl) (by rfl)

/-! ## Claim C8 -/

theorem lastN_append_suffix (l : List ChatMsg) (a : ChatMsg) :
    ∃ p, lastN 20 (l ++ [a]) = p ++ [a] := by
  unfold lastN
  have hlen : (l ++ [a]).length = l.length + 1 := by simp
  rw [hlen]
  have hle : l.length + 1 - 20 ≤ l.length := by omega
  rw [List.drop_append_of_le_length hle]
  exact ⟨_, rfl⟩

theorem lastN_append_suffix2 (l : List ChatMsg) (a b : ChatMsg) :
    ∃ p, lastN 20 (l ++ [a] ++ [b]) = p ++ [a, b] := by
  unfold lastN
  have hlen : (l ++ [a] ++ [b]).length = l.length + 2 := by simp
  rw [hlen]
  have hle : l.length + 2 - 20 ≤ l.length := by omega
  rw [List.append_assoc, List.drop_append_of_le_length hle]
  exact ⟨_, rfl⟩

theorem store_short_suffix (mem : MemShort) (session U A : String) :
    ∃ q, (store_short (store_short mem session "user" U) session "assistant" A) session =
      q ++ [⟨"user", U⟩, ⟨"assistant", A⟩] := by
  unfold store_short
  simp only [if_pos rfl]
  rcases lastN_append_suffix (mem session) ⟨"user", U⟩ with ⟨p, hp⟩
  rw [hp]
  exact lastN_append_suffix2 p ⟨"user", U⟩ ⟨"assistant", A⟩

/-- C8 counterexample: when the run's user input is empty, the final user
message sent to the LLM carries the predecessor context, not the original
user input.  The chat oracle here echoes the content of the last message it
receives: the response is the context `"ctx"`, which differs from the empty
original input. -/
theorem c8_counterexample :
    (run_agent ⟨fun _ msgs => .ok ((msgs.getLast?.map (fun m => m.content)).getD ""),
        fun _ _ => .ok "", fun _ => .ok "", fun _ => []⟩ (fun _ => [])
        ⟨"ag", defaultNodeData⟩ "" [("p", "ctx")] "s" none (some "ctx")).1 = .ok "ctx" ∧
    ("ctx" : String) ≠ "" := by
  exact ⟨rfl, by decide⟩

/-- C8 amended: the message sequence sent to the LLM is one system message —
the configured prompt or a generated default, extended by the optional
knowledge block (keyed by the original user input, looked up only when that
input is nonempty) and the optional predecessor-context block — then the
optionally injected session-history recap, then a final user message whose
content is the original user input, or the predecessor context when that
input is empty; on success with memory enabled, that same user text and the
response are appended to the session's short-term history (capped at the
last 20 entries). -/
theorem c8_agent_message_assembly (env : Env) (mem : MemShort) (node : Node)
    (outs : List (String × String)) (session user_input ctx kctx resp : String)
    (ov : Option String)
    (hknow : (if user_input ≠ "" then env.knowledge user_input else Except.ok "") = .ok kctx)
    (hchat : env.chat (agentModelStr node.data ov)
      (agentMessages mem node.data session user_input ctx kctx) = .ok resp) :
    (∃ hist, agentMessages mem node.data session user_input ctx kctx =
        (⟨"system", agentSystem node.data user_input ctx kctx⟩ :: hist) ++
          [⟨"user", if user_input = "" then ctx else user_input⟩] ∧
      (hist = [] ∨ ∃ recap, hist = [⟨"system", recap⟩]) ∧
      (node.data.memory = false → hist = []) ∧
      (mem session = [] → hist = [])) ∧
    agentSystem node.data user_input ctx kctx =
      (if node.data.systemPrompt = "" then
        "You are a helpful " ++ node.data.label ++
        " assistant. Use the provided context to answer the user's question clearly and concisely."
       else node.data.systemPrompt) ++
      (if kctx = "" then "" else ("\n\nRelevant knowledge:\n" ++ kctx)) ++
      (if ctx ≠ "" ∧ ctx ≠ user_input then ("\n\nContext from previous steps:\n" ++ ctx)
       else "") ∧
    (run_agent env mem node user_input outs session ov (some ctx)).1 = .ok resp ∧
    (node.data.memory = true →
      ∃ q, (run_agent env mem node user_input outs session ov (some ctx)).2 session =
        q ++ [⟨"user", if user_input = "" then ctx else user_input⟩, ⟨"assistant", resp⟩]) ∧
    (node.data.memory = false →
      (run_agent env mem node user_input outs session ov (some ctx)).2 = mem) := by
  have hrun : run_agent env mem node user_input outs session ov (some ctx) =
      (.ok resp,
        if node.data.memory then
          store_short (store_short mem session "user" (strOr user_input ctx))
            session "assistant" resp
        else mem) := by
    unfold run_agent
    rw [hknow]
    simp only []
    rw [hchat]
  refine ⟨?_, ?_, ?_, ?_, ?_⟩
  · unfold agentMessages
    by_cases hm : node.data.memory
    · simp only [hm, if_true]
      unfold inject_context
      by_cases hh : mem session = []
      · rw [if_pos hh]
        exact ⟨[], by simp [strOr], Or.inl rfl, fun _ => rfl, fun _ => rfl⟩
      · rw [if_neg hh]
        simp only []
        refine ⟨[⟨"system", "Previous conversation:\n" ++ String.intercalate "\n"
          ((lastN 6 (mem session)).map
            (fun m => "  " ++ m.role ++ ": " ++ m.content.take 200))⟩],
          by simp [strOr], Or.inr ⟨_, rfl⟩, ?_, ?_⟩
        · intro hc
          exact absurd hc (by simp)
        · intro hc
          exact absurd hc hh
    · have hm' : node.data.memory = false := by
        rcases hb : node.data.memory with _ | _
        · rfl
        · exact absurd hb hm
      simp only [hm', Bool.false_eq_true, if_false]
      exact ⟨[], by simp [strOr], Or.inl rfl, fun _ => rfl, fun _ => rfl⟩
  · unfold agentSystem strOr
    by_cases hsp : node.data.systemPrompt = "" <;>
      by_cases hk : kctx = "" <;>
      by_cases hc : ctx ≠ "" ∧ ctx ≠ user_input <;>
      simp [hsp, hk, hc]
  · rw [hrun]
  · intro hm
    rw [hrun]
    simp only [hm, if_true]
    have : strOr user_input ctx = if user_input = "" then ctx else user_input := rfl
    rw [← this]
    exact store_short_suffix mem session (strOr user_input ctx) resp
  · intro hm
    rw [hrun]
    simp [hm]

theorem c8_agent_message_assembly_witness :
    (∃ hist, agentMessages (fun _ => []) defaultNodeData "s" "hi" "pctx" "" =
        (⟨"system", agentSystem defaultNodeData "hi" "pctx" ""⟩ :: hist) ++
          [⟨"user", if ("hi" : String) = "" then "pctx" else "hi"⟩] ∧
      (hist = [] ∨ ∃ recap, hist = [⟨"system", recap⟩]) ∧
      (defaultNodeData.memory = false → hist = []) ∧
      ((fun _ => ([] : List ChatMsg)) "s" = [] → hist = [])) ∧
    agentSystem defaultNodeData "hi" "pctx" "" =
      (if defaultNodeData.systemPrompt = "" then
        "You are a helpful " ++ defaultNodeData.label ++
        " assistant. Use the provided context to answer the user's question clearly and concisely."
       else defaultNodeData.systemPrompt) ++
      (if ("" : String) = "" then "" else ("\n\nRelevant knowledge:\n" ++ "")) ++
      (if ("pctx" : String) ≠ "" ∧ ("pctx" : String) ≠ "hi" then
        ("\n\nContext from previous steps:\n" ++ "pctx") else "") ∧
    (run_agent ⟨fun _ _ => .ok "RESP", fun _ _ => .ok "", fun _ => .ok "", fun _ => []⟩
      (fun _ => []) ⟨"ag", defaultNodeData⟩ "hi" [] "s" none (some "pctx")).1 = .ok "RESP" ∧
    (defaultNodeData.memory = true →
      ∃ q, (run_agent ⟨fun _ _ => .ok "RESP", fun _ _ => .ok "", fun _ => .ok "",
          fun _ => []⟩
        (fun _ => []) ⟨"ag", defaultNodeData⟩ "hi" [] "s" none (some "pctx")).2 "s" =
        q ++ [⟨"user", if ("hi" : String) = "" then "pctx" else "hi"⟩, ⟨"assistant", "RESP"⟩]) ∧
    (defaultNodeData.memory = false →
      (run_agent ⟨fun _ _ => .ok "RESP", fun _ _ => .ok "", fun _ => .ok "", fun _ => []⟩
        (fun _ => []) ⟨"ag", defaultNodeData⟩ "hi" [] "s" none (some "pctx")).2 =
        (fun _ => [])) :=
  c8_agent_message_assembly _ _ ⟨"ag", defaultNodeData⟩ [] "s" "hi" "pctx" "" "RESP" none
    (by rfl) (by rfl)

/-! ## Background queue invariants -/

theorem workerFinish_eq (env : Env) (s : BgState) (tid : String) (t : BTask)
    (htask : s.tasks tid = some t) :
    ∃ (st : TaskStatus) (res : String), (st = TaskStatus.done ∨ st = TaskStatus.error) ∧
      workerFinish env s tid =
        { tasks := updateTask s.tasks tid (some ⟨st, some res, t.flow, t.user_input⟩),
          queue := s.queue, worker := .idle, submitted := s.submitted,
          started := s.started } := by
  rcases hr : (execute env t.flow t.user_input "ollama:llama3:8b" ("bg-" ++ tid)).raised
    with _ | exc
  · refine ⟨.done,
      joinLogs (execute env t.flow t.user_input "ollama:llama3:8b" ("bg-" ++ tid)).events,
      Or.inl rfl, ?_⟩
    unfold workerFinish
    rw [htask]
    simp only [hr]
  · refine ⟨.error, "Error: " ++ exc, Or.inr rfl, ?_⟩
    unfold workerFinish
    rw [htask]
    simp only [hr]

theorem bg_inv_init : BgInv BgState.init := by
  refine ⟨?_, ?_, ?_, rfl, List.nodup_nil, ?_⟩
  · intro tid t h
    exact absurd h (by simp [BgState.init])
  · intro tid t h
    exact absurd h (by simp [BgState.init])
  · intro tid h
    exact absurd h (by simp [BgState.init])
  · intro tid h
    exact absurd h (by simp [BgState.init])

theorem bg_inv_step {env : Env} {s s' : BgState} (inv : BgInv s) (hstep : BgStep env s s') :
    BgInv s' := by
  have hqueue_sub : ∀ x ∈ s.queue, x ∈ s.submitted := by
    intro x hx
    rw [← inv.fifo]
    exact List.mem_append.mpr (Or.inr hx)
  have hstarted_sub : ∀ x ∈ s.started, x ∈ s.submitted := by
    intro x hx
    rw [← inv.fifo]
    exact List.mem_append.mpr (Or.inl hx)
  have hdisj : ∀ x ∈ s.started, x ∉ s.queue := by
    have := inv.fifo ▸ inv.submitted_nodup
    rcases List.nodup_append.mp this with ⟨_, _, hd⟩
    intro x hx
    exact hd hx
  have hqueue_nodup : s.queue.Nodup := by
    have := inv.fifo ▸ inv.submitted_nodup
    exact (List.nodup_append.mp this).2.1
  cases hstep with
  | submit tid0 flow input hnone hfresh hlen =>
    refine ⟨?_, ?_, ?_, ?_, ?_, ?_⟩
    · intro tid t htid hrun
      by_cases h : tid = tid0
      · subst h
        simp only [submitState, updateTask, if_pos rfl] at htid
        rcases Option.some.inj htid with rfl
        exact absurd hrun (by simp)
      · simp only [submitState, updateTask, if_neg h] at htid
        exact inv.running_busy tid t htid hrun
    · intro tid t hb htid
      have hb' : s.worker = .busy tid := hb
      by_cases h : tid = tid0
      · subst h
        exact absurd (hstarted_sub tid (inv.busy_started tid hb')) hfresh
      · simp only [submitState, updateTask, if_neg h] at htid
        exact inv.busy_running tid t hb' htid
    · intro tid hb
      exact inv.busy_started tid hb
    · show s.started ++ (s.queue ++ [tid0]) = s.submitted ++ [tid0]
      rw [← List.append_assoc, inv.fifo]
    · refine List.nodup_append.mpr ⟨inv.submitted_nodup, List.nodup_singleton _, ?_⟩
      intro x hx hx2
      rcases List.mem_singleton.mp hx2 with rfl
      exact hfresh hx
    · intro tid htid t ht
      rcases List.mem_append.mp htid with hq | hq
      · have hne : tid ≠ tid0 := fun h => hfresh (h ▸ hqueue_sub tid hq)
        simp only [submitState, updateTask, if_neg hne] at ht
        exact inv.queue_pending tid hq t ht
      · rcases List.mem_singleton.mp hq with rfl
        simp only [submitState, updateTask, if_pos rfl] at ht
        rcases Option.some.inj ht with rfl
        rfl
  | dequeue hidle hne =>
    rcases hq : s.queue with _ | ⟨tid0, rest⟩
    · exact absurd hq hne
    have htid0_q : tid0 ∈ s.queue := by rw [hq]; exact List.mem_cons_self _ _
    have htid0_started : tid0 ∉ s.started := fun hc => hdisj tid0 hc htid0_q
    have htid0_rest : tid0 ∉ rest := by
      rw [hq] at hqueue_nodup
      exact (List.nodup_cons.mp hqueue_nodup).1
    unfold workerDequeue
    rw [hq]
    rcases htt : s.tasks tid0 with _ | t0
    · simp only [htt]
      refine ⟨?_, ?_, ?_, ?_, inv.submitted_nodup, ?_⟩
      · intro tid t htid hrun
        exact inv.running_busy tid t htid hrun
      · intro tid t hb htid
        exact absurd (hb ▸ hidle) (by simp)
      · intro tid hb
        exact absurd (hb ▸ hidle) (by simp)
      · show (s.started ++ [tid0]) ++ rest = s.submitted
        rw [List.append_assoc, List.singleton_append, ← hq]
        exact inv.fifo
      · intro tid htid t ht
        exact inv.queue_pending tid (by rw [hq]; exact List.mem_cons.mpr (Or.inr htid)) t ht
    · simp only [htt]
      refine ⟨?_, ?_, ?_, ?_, inv.submitted_nodup, ?_⟩
      · intro tid t htid hrun
        by_cases h : tid = tid0
        · subst h; rfl
        · simp only [updateTask, if_neg h] at htid
          have := inv.running_busy tid t htid hrun
          rw [hidle] at this
          exact absurd this (by simp)
      · intro tid t hb htid
        have hb2 : WorkerPhase.busy tid0 = WorkerPhase.busy tid := hb
        have h : tid = tid0 := (WorkerPhase.busy.inj hb2).symm
        subst h
        simp only [updateTask, if_pos rfl] at htid
        rcases Option.some.inj htid with rfl
        rfl
      · intro tid hb
        have hb2 : WorkerPhase.busy tid0 = WorkerPhase.busy tid := hb
        have h : tid = tid0 := (WorkerPhase.busy.inj hb2).symm
        subst h
        exact List.mem_append.mpr (Or.inr (List.mem_singleton_self _))
      · show (s.started ++ [tid0]) ++ rest = s.submitted
        rw [List.append_assoc, List.singleton_append, ← hq]
        exact inv.fifo
      · intro tid htid t ht
        have hne2 : tid ≠ tid0 := fun h => htid0_rest (h ▸ htid)
        simp only [updateTask, if_neg hne2] at ht
        exact inv.queue_pending tid (by rw [hq]; exact List.mem_cons.mpr (Or.inr htid)) t ht
  | finish tid0 t0 hbusy htask =>
    rcases workerFinish_eq env s tid0 t0 htask with ⟨st, res, hst, heq⟩
    rw [heq]
    have htid0_started : tid0 ∈ s.started := inv.busy_started tid0 hbusy
    have htid0_q : tid0 ∉ s.queue := hdisj tid0 htid0_started
    refine ⟨?_, ?_, ?_, inv.fifo, inv.submitted_nodup, ?_⟩
    · intro tid t htid hrun
      by_cases h : tid = tid0
      · subst h
        simp only [updateTask, if_pos rfl] at htid
        rcases Option.some.inj htid with rfl
        rcases hst with rfl | rfl <;> exact absurd hrun (by simp)
      · simp only [updateTask, if_neg h] at htid
        have := inv.running_busy tid t htid hrun
        rw [hbusy] at this
        exact absurd (WorkerPhase.busy.inj this.symm) h
    · intro tid t hb _
      exact absurd (hb : WorkerPhase.idle = WorkerPhase.busy tid) (by simp)
    · intro tid hb
      exact absurd (hb : WorkerPhase.idle = WorkerPhase.busy tid) (by simp)
    · intro tid htid t ht
      have hne2 : tid ≠ tid0 := fun h => htid0_q (h ▸ htid)
      simp only [updateTask, if_neg hne2] at ht
      exact inv.queue_pending tid htid t ht
  | delete tid0 =>
    refine ⟨?_, ?_, ?_, inv.fifo, inv.submitted_nodup, ?_⟩
    · intro tid t htid hrun
      by_cases h : tid = tid0
      · subst h
        simp only [deleteState, updateTask, if_pos rfl] at htid
        exact absurd htid (by simp)
      · simp only [deleteState, updateTask, if_neg h] at htid
        exact inv.running_busy tid t htid hrun
    · intro tid t hb htid
      by_cases h : tid = tid0
      · subst h
        simp only [deleteState, updateTask, if_pos rfl] at htid
        exact absurd htid (by simp)
      · simp only [deleteState, updateTask, if_neg h] at htid
        exact inv.busy_running tid t hb htid
    · intro tid hb
      exact inv.busy_started tid hb
    · intro tid htid t ht
      by_cases h : tid = tid0
      · subst h
        simp only [deleteState, updateTask, if_pos rfl] at ht
        exact absurd ht (by simp)
      · simp only [deleteState, updateTask, if_neg h] at ht
        exact inv.queue_pending tid htid t ht

theorem bg_reachable_inv {env : Env} {s : BgState} (h : BgReachable env s) : BgInv s := by
  induction h with
  | init => exact bg_inv_init
  | step _ hstep ih => exact bg_inv_step ih hstep

/-! ## Every executor event carries a nonempty message -/

theorem append_ne_empty_left {a : String} (b : String) (h : a ≠ "") : a ++ b ≠ "" := by
  intro hc
  apply h
  have hlen := congrArg String.length hc
  rw [String.length_append] at hlen
  have ha : a.length = 0 := by
    have : String.length "" = 0 := rfl
    omega
  rcases a with ⟨l⟩
  rcases l with _ | ⟨c, cs⟩
  · rfl
  · exact absurd ha (by simp [String.length])

theorem dispatch_infos_msg (env : Env) (g : FlowGraph) (user_input model session : String)
    (outputs : List (String × String)) (mem : MemShort) (nid : String) :
    ∀ ev ∈ (dispatchNode env g user_input model session outputs mem nid).1,
      ev.message ≠ "" := by
  intro ev hev
  unfold dispatchNode at hev
  rcases htype : (nodeMapGet g nid).data.nodeType <;> simp only [htype] at hev <;>
    first
      | exact absurd hev (List.not_mem_nil ev)
      | (rw [List.mem_singleton] at hev; subst hev;
         first
           | (simp [mkLog]; done)
           | (apply append_ne_empty_left; decide)
           | (apply append_ne_empty_left; apply append_ne_empty_left; decide))

theorem stepEvents_msg (env : Env) (g : FlowGraph) (user_input model session : String)
    (outs : List (String × String)) (mem : MemShort) (nid : String) :
    ∀ ev ∈ stepEvents env g user_input model session outs mem nid, ev.message ≠ "" := by
  intro ev hev
  have hst : stepEvents env g user_input model session outs mem nid =
      (mkLog .exec (some nid) ("▶ " ++ (nodeMapGet g nid).data.label) none ::
        (dispatchNode env g user_input model session outs mem nid).1) ++
      [match (dispatchNode env g user_input model session outs mem nid).2.1 with
       | .ok result =>
         mkLog .ok (some nid) ("  ✓ " ++ (nodeMapGet g nid).data.label ++ ": " ++
           firstSentence result) (some (.output result))
       | .error exc =>
         mkLog .err (some nid) ("  ✗ " ++ (nodeMapGet g nid).data.label ++ " failed: " ++ exc)
           none] := rfl
  rw [hst] at hev
  rcases List.mem_append.mp hev with h | h
  · rcases List.mem_cons.mp h with rfl | h'
    · apply append_ne_empty_left
      decide
    · exact dispatch_infos_msg env g user_input model session outs mem nid ev h'
  · rcases List.mem_singleton.mp h with rfl
    rcases hres : (dispatchNode env g user_input model session outs mem nid).2.1 with e | v <;>
      simp only [hres] <;>
      (apply append_ne_empty_left; apply append_ne_empty_left; apply append_ne_empty_left;
       decide)

theorem foldl_events_msg (env : Env) (g : FlowGraph) (user_input model session : String)
    (ns : List String) :
    ∀ (outs : List (String × String)) (mem : MemShort),
    ∀ ev ∈ (List.foldl (execStep env g user_input model session) ⟨[], outs, mem⟩ ns).events,
      ev.message ≠ "" := by
  induction ns with
  | nil => intro outs mem ev hev; exact absurd hev (by simp)
  | cons nid rest ih =>
    intro outs mem ev hev
    rw [List.foldl_cons, execStep_eq] at hev
    simp only [List.nil_append] at hev
    rw [foldl_exec_shift] at hev
    rcases List.mem_append.mp hev with h | h
    · exact stepEvents_msg env g user_input model session outs mem nid ev h
    · exact ih _ _ ev h

theorem execute_messages_ne_empty (env : Env) (g : FlowGraph)
    (user_input model session : String) :
    ∀ ev ∈ (execute env g user_input model session).events, ev.message ≠ "" := by
  intro ev hev
  have hstart : (startEvent g).message ≠ "" := by
    show "Starting execution — " ++ toString g.nodes.length ++ " nodes" ≠ ""
    apply append_ne_empty_left
    apply append_ne_empty_left
    decide
  unfold execute at hev
  rcases hres : topologicalSort g with err | order
  · rcases err with k | msg
    · rw [hres] at hev
      simp only [List.mem_singleton] at hev
      subst hev
      exact hstart
    · rw [hres] at hev
      have hmsg : msg = cycleMsg := topologicalSort_valueError_msg hres
      rcases List.mem_cons.mp hev with rfl | hev'
      · exact hstart
      · rcases List.mem_singleton.mp hev' with rfl
        subst hmsg
        exact (by decide : cycleMsg ≠ "")
  · rw [hres] at hev
    rcases List.mem_append.mp hev with h | h
    · rcases List.mem_cons.mp h with rfl | h'
      · exact hstart
      · exact foldl_events_msg env g user_input model session order [] env.mem0 ev h'
    · rcases List.mem_singleton.mp h with rfl
      exact (by decide : ("Execution complete ✓" : String) ≠ "")

theorem joinLogs_eq_all_messages {events : List LogEvent}
    (h : ∀ ev ∈ events, ev.message ≠ "") :
    joinLogs events = String.intercalate "\n" (events.map (fun e => e.message)) := by
  unfold joinLogs
  congr 1
  apply List.filter_eq_self.mpr
  intro m hm
  rcases List.mem_map.mp hm with ⟨ev, hev, rfl⟩
  exact decide_eq_true (h ev hev)

/-! ## Claim C7 -/

/-- C7: across any step of the background system, every task's status only
moves forward along `pending → running → done|error`; after the step no two
tasks are simultaneously running; dequeue order is exactly submission
order (`started ++ queue = submitted`); and a task the worker completes
normally gets as its result the newline-join of the messages of every
event its run produced. -/
theorem c7_background_queue_lifecycle (env : Env) {s s' : BgState}
    (hreach : BgReachable env s) (hstep : BgStep env s s') :
    (∀ tid t t', s.tasks tid = some t → s'.tasks tid = some t' →
      statusForward t.status t'.status) ∧
    atMostOneRunning s' ∧
    s'.started ++ s'.queue = s'.submitted ∧
    (∀ tid t t', s.worker = .busy tid → s.tasks tid = some t → s'.tasks tid = some t' →
      t'.status = .done →
      t'.result = some (String.intercalate "\n"
        (((execute env t.flow t.user_input "ollama:llama3:8b" ("bg-" ++ tid)).events).map
          (fun e => e.message)))) := by
  have inv := bg_reachable_inv hreach
  have inv' := bg_inv_step inv hstep
  refine ⟨?_, ?_, inv'.fifo, ?_⟩
  · -- forward status
    intro tid t t' htid htid'
    cases hstep with
    | submit tid0 flow input hnone hfresh hlen =>
      have hne : tid ≠ tid0 := by
        intro h
        rw [h, hnone] at htid
        exact absurd htid (by simp)
      simp only [submitState, updateTask, if_neg hne] at htid'
      rw [htid] at htid'
      rcases Option.some.inj htid' with rfl
      exact Or.inl rfl
    | dequeue hidle hne =>
      rcases hq : s.queue with _ | ⟨tid0, rest⟩
      · exact absurd hq hne
      unfold workerDequeue at htid'
      rw [hq] at htid'
      rcases htt : s.tasks tid0 with _ | t0 <;> simp only [htt] at htid'
      · rw [htid] at htid'
        rcases Option.some.inj htid' with rfl
        exact Or.inl rfl
      · by_cases h : tid = tid0
        · subst h
          simp only [updateTask, if_pos rfl] at htid'
          rcases Option.some.inj htid' with rfl
          rw [htid] at htt
          rcases Option.some.inj htt with rfl
          have hpend := inv.queue_pending tid (by rw [hq]; exact List.mem_cons_self _ _) t htid
          exact Or.inr (Or.inl ⟨hpend, rfl⟩)
        · simp only [updateTask, if_neg h] at htid'
          rw [htid] at htid'
          rcases Option.some.inj htid' with rfl
          exact Or.inl rfl
    | finish tid0 t0 hbusy htask =>
      rcases workerFinish_eq env s tid0 t0 htask with ⟨st, res, hst, heq⟩
      rw [heq] at htid'
      by_cases h : tid = tid0
      · subst h
        simp only [updateTask, if_pos rfl] at htid'
        rcases Option.some.inj htid' with rfl
        rw [htid] at htask
        rcases Option.some.inj htask with rfl
        have hrun := inv.busy_running tid t hbusy htid
        exact Or.inr (Or.inr ⟨hrun, by
          rcases hst with rfl | rfl
          · exact Or.inl rfl
          · exact Or.inr rfl⟩)
      · simp only [updateTask, if_neg h] at htid'
        rw [htid] at htid'
        rcases Option.some.inj htid' with rfl
        exact Or.inl rfl
    | delete tid0 =>
      by_cases h : tid = tid0
      · subst h
        simp only [deleteState, updateTask, if_pos rfl] at htid'
        exact absurd htid' (by simp)
      · simp only [deleteState, updateTask, if_neg h] at htid'
        rw [htid] at htid'
        rcases Option.some.inj htid' with rfl
        exact Or.inl rfl
  · -- at most one running after the step
    intro t1 t2 b1 b2 h1 h2 hr1 hr2
    have hb1 := inv'.running_busy t1 b1 h1 hr1
    have hb2 := inv'.running_busy t2 b2 h2 hr2
    rw [hb1] at hb2
    exact WorkerPhase.busy.inj hb2
  · -- normal completion aggregates every event message
    intro tid t t' hbusy htid htid' hdone
    cases hstep with
    | submit tid0 flow input hnone hfresh hlen =>
      have hne : tid ≠ tid0 := by
        intro h
        rw [h, hnone] at htid
        exact absurd htid (by simp)
      simp only [submitState, updateTask, if_neg hne] at htid'
      rw [htid] at htid'
      rcases Option.some.inj htid' with rfl
      have hrunn := inv.busy_running tid t hbusy htid
      rw [hdone] at hrunn
      exact absurd hrunn (by simp)
    | dequeue hidle hne =>
      rw [hidle] at hbusy
      exact absurd hbusy (by simp)
    | finish tid0 t0 hbusy2 htask =>
      have heq0 : tid = tid0 := by
        rw [hbusy] at hbusy2
        exact WorkerPhase.busy.inj hbusy2
      subst heq0
      rw [htid] at htask
      rcases Option.some.inj htask with rfl
      unfold workerFinish at htid'
      rw [htid] at htid'
      rcases hr : (execute env t.flow t.user_input "ollama:llama3:8b" ("bg-" ++ tid)).raised
        with _ | exc <;> simp only [hr] at htid'
      · simp only [updateTask, if_pos rfl] at htid'
        rcases Option.some.inj htid' with rfl
        show some (joinLogs (execute env t.flow t.user_input "ollama:llama3:8b"
          ("bg-" ++ tid)).events) = _
        rw [joinLogs_eq_all_messages
          (execute_messages_ne_empty env t.flow t.user_input "ollama:llama3:8b" ("bg-" ++ tid))]
      · simp only [updateTask, if_pos rfl] at htid'
        rcases Option.some.inj htid' with rfl
        exact absurd hdone (by simp)
    | delete tid0 =>
      by_cases h : tid = tid0
      · subst h
        simp only [deleteState, updateTask, if_pos rfl] at htid'
        exact absurd htid' (by simp)
      · simp only [deleteState, updateTask, if_neg h] at htid'
        rw [htid] at htid'
        rcases Option.some.inj htid' with rfl
        have hrunn := inv.busy_running tid t hbusy htid
        rw [hdone] at hrunn
        exact absurd hrunn (by simp)

/-! ## Claim C10 -/

/-- C10: when the worker dequeues an id whose record was deleted before the
dequeue, it skips it: no task record is created or mutated, the worker does
not go busy, and the rest of the queue is ready to be processed next. -/
theorem c10_worker_skips_deleted (s : BgState) (tid : String) (rest : List String)
    (hq : s.queue = tid :: rest) (hmiss : s.tasks tid = none) :
    (workerDequeue s).tasks = s.tasks ∧
    (workerDequeue s).worker = s.worker ∧
    (workerDequeue s).queue = rest ∧
    (workerDequeue s).submitted = s.submitted := by
  unfold workerDequeue
  rw [hq]
  simp [hmiss]

theorem c7_background_queue_lifecycle_witness :
    (∀ tid t t', bgAfterDequeue.tasks tid = some t →
      (workerFinish envTrivial bgAfterDequeue "t1").tasks tid = some t' →
      statusForward t.status t'.status) ∧
    atMostOneRunning (workerFinish envTrivial bgAfterDequeue "t1") ∧
    (workerFinish envTrivial bgAfterDequeue "t1").started ++
      (workerFinish envTrivial bgAfterDequeue "t1").queue =
      (workerFinish envTrivial bgAfterDequeue "t1").submitted ∧
    (∀ tid t t', bgAfterDequeue.worker = .busy tid → bgAfterDequeue.tasks tid = some t →
      (workerFinish envTrivial bgAfterDequeue "t1").tasks tid = some t' →
      t'.status = .done →
      t'.result = some (String.intercalate "\n"
        (((execute envTrivial t.flow t.user_input "ollama:llama3:8b" ("bg-" ++ tid)).events).map
          (fun e => e.message)))) :=
  c7_background_queue_lifecycle envTrivial
    (BgReachable.step
      (BgReachable.step BgReachable.init
        (BgStep.submit BgState.init "t1" gOneInput "hi" rfl (by simp [BgState.init])
          (by decide)))
      (BgStep.dequeue bgAfterSubmit rfl (by decide)))
    (BgStep.finish bgAfterDequeue "t1" ⟨.running, none, gOneInput, "hi"⟩ rfl rfl)

theorem c10_worker_skips_deleted_witness :
    (workerDequeue (deleteState bgAfterSubmit "t1")).tasks =
      (deleteState bgAfterSubmit "t1").tasks ∧
    (workerDequeue (deleteState bgAfterSubmit "t1")).worker =
      (deleteState bgAfterSubmit "t1").worker ∧
    (workerDequeue (deleteState bgAfterSubmit "t1")).queue = [] ∧
    (workerDequeue (deleteState bgAfterSubmit "t1")).submitted =
      (deleteState bgAfterSubmit "t1").submitted :=
  c10_worker_skips_deleted (deleteState bgAfterSubmit "t1") "t1" [] (by rfl) (by rfl)

end AgentForge
